import Mathlib

/-!
random-leak: the sampling callback and the /proc handlers

A shallow embedding of `src/src/random-leak.c`.

* Machine integers are natural numbers; `size_t` arithmetic that can wrap is
  reduced modulo `2 ^ 64` (`size_add`, `size_sub`), conversions to the signed
  return type go through `to_ssize`.
* The kernel services the module calls are explicit: the entropy generator is
  a byte stream with a cursor, kernel memory is a partial map from addresses to
  bytes, the symbol enumerator walks the list of symbol addresses of one pass.
* C behaviour that has no value (division or modulo by zero, a read of an
  unmapped address, a store through a null pointer) is a `Run.fault`.
* The `while` loop of `proc_read` has no bound in the source; the model runs it
  with a pass budget and reports `Run.out_of_fuel` when the budget is spent.
-/

namespace RandomLeak

/-! ## Machine arithmetic -/

/-- Modulus of `size_t` / `unsigned long` on the 64-bit targets of the module. -/
def SIZE_MOD : Nat := 2 ^ 64

/-- Modulus of `u32`. -/
def U32_MOD : Nat := 2 ^ 32

/-- The constant `RAND_DET = 1UL << 18` of the source. -/
def RAND_DET : Nat := 1 <<< 18

/-- Errno `EINVAL`. -/
def EINVAL : Int := 22

/-- Errno `EFAULT`. -/
def EFAULT : Int := 14

/-- Errno `ERANGE`. -/
def ERANGE : Int := 34

/-- Addition of two `size_t` values. -/
def size_add (a b : Nat) : Nat := (a + b) % SIZE_MOD

/-- Subtraction of two `size_t` values (both below `2 ^ 64`), wrapping. -/
def size_sub (a b : Nat) : Nat := (a + SIZE_MOD - b) % SIZE_MOD

/-- Conversion of a 64-bit unsigned value to `ssize_t` / `loff_t`. -/
def to_ssize (n : Nat) : Int :=
  if n % SIZE_MOD < 2 ^ 63 then ((n % SIZE_MOD : Nat) : Int)
  else ((n % SIZE_MOD : Nat) : Int) - 2 ^ 64

/-- Conversion of an `int` to `u32`. -/
def u32_of_int (i : Int) : Nat := (i % 4294967296).toNat

/-- The kernel macro `min3(x, y, z)`, which is `min(min(x, y), z)`. -/
def min3 (a b c : Nat) : Nat := min (min a b) c

/-! ## The host: everything the module obtains from the kernel -/

/-- The kernel around the module.  `PAGE_SIZE` comes from `asm/page.h`, which is
not part of the repository, so it is a field here. -/
structure Host where
  /-- The page size constant. -/
  PAGE_SIZE : Nat
  /-- Kernel memory: the byte at an address, `none` when the read faults. -/
  mem : Nat → Option Nat
  /-- The symbol addresses visited by the enumeration pass with a given index
  (the names are never looked at by the callback). -/
  kallsyms : Nat → List Nat
  /-- The bytes the random generator delivers, in order. -/
  entropy : Nat → Nat
  /-- Whether `kzalloc` of a given size succeeds. -/
  kzalloc_ok : Nat → Bool

/-- The mutable state: the global `BYTES_TO_FETCH`, the cursor of the entropy
stream, and two ghost fields recording the addresses read so far and the number
of enumeration passes requested so far. -/
structure World where
  BYTES_TO_FETCH : Nat
  rng_pos : Nat
  reads : List Nat
  passes : Nat
deriving DecidableEq, Repr

/-- The struct `data_kallsyms_it`; `buf` is the content of the allocated block. -/
structure data_kallsyms_it where
  buf : List Nat
  count_rem : Nat
  bytes_cache : Nat
deriving DecidableEq, Repr

/-- The union `Packed32`: four bytes, read back as one `u32` (little endian). -/
structure Packed32 where
  b0 : Nat
  b1 : Nat
  b2 : Nat
  b3 : Nat
deriving DecidableEq, Repr

/-- The member `pack` of the union. -/
def Packed32.pack (p : Packed32) : Nat :=
  p.b0 + 256 * p.b1 + 65536 * p.b2 + 16777216 * p.b3

/-- Ways in which a call can end without a value. -/
inductive Fault where
  | divide_error
  | page_fault
  | null_deref
deriving DecidableEq, Repr

/-- Outcome of running a piece of the module. -/
inductive Run (α : Type) where
  | done (a : α)
  | fault (f : Fault)
  | out_of_fuel
deriving DecidableEq, Repr

/-- Byte `i` of the next draw of the generator. -/
def rng_byte (h : Host) (w : World) (i : Nat) : Nat :=
  h.entropy (w.rng_pos + i) % 256

/-- Modelled from the spec: `crypto_rng_get_bytes(rng, buf.bytes, n)` is kernel
code outside the repository; following the entropy source contract it hands out
the next `n` bytes of the stream, stores them in the first `n` bytes of the
union and advances the cursor by `n`. -/
def crypto_rng_get_bytes (h : Host) (w : World) (buf : Packed32) (n : Nat) :
    Packed32 × World :=
  ({ b0 := if 0 < n then rng_byte h w 0 else buf.b0,
     b1 := if 1 < n then rng_byte h w 1 else buf.b1,
     b2 := if 2 < n then rng_byte h w 2 else buf.b2,
     b3 := if 3 < n then rng_byte h w 3 else buf.b3 },
   { w with rng_pos := w.rng_pos + n })

/-! ## `iterate_kallsyms` -/

/-- The `for` loop of `iterate_kallsyms` (lines 87-93): `k` iterations are left,
the next index is `i`. A non-zero byte is stored at `bytes_cache - count_rem`
and `count_rem` is decremented; a zero byte changes nothing. -/
def iterate_kallsyms_loop (h : Host) (loc : Nat) :
    Nat → Nat → data_kallsyms_it → World → Run (data_kallsyms_it × World)
  | 0, _, dat, w => Run.done (dat, w)
  | k + 1, i, dat, w =>
    match h.mem (loc + i) with
    | none => Run.fault Fault.page_fault
    | some v =>
      let b := v % 256
      let w1 : World := { w with reads := w.reads ++ [loc + i] }
      if b ≠ 0 then
        iterate_kallsyms_loop h loc k (i + 1)
          { dat with
            buf := dat.buf.set (size_sub dat.bytes_cache dat.count_rem) b,
            count_rem := size_sub dat.count_rem 1 } w1
      else
        iterate_kallsyms_loop h loc k (i + 1) dat w1

/-- The threshold `(RAND_DET / BYTES_TO_FETCH) << 3` of line 77. -/
def threshold (bytes_to_fetch : Nat) : Nat := (RAND_DET / bytes_to_fetch) <<< 3

/-- The value `rem_in_page` of line 82. -/
def rem_in_page (h : Host) (symaddr : Nat) : Nat :=
  h.PAGE_SIZE - symaddr % h.PAGE_SIZE

/-- The value `bytes` of line 83, from `count_rem`, the one-byte draw and
`rem_in_page`. -/
def bytes_to_pull (count_rem draw rem : Nat) : Nat := min3 count_rem draw rem % 16

/-- The callback `iterate_kallsyms(data, namebuf, symaddr)`; `namebuf` is unused
by the source and left out. The result is the return value, the struct behind
`data` and the new state. -/
def iterate_kallsyms (h : Host) (w : World) (dat : data_kallsyms_it) (symaddr : Nat) :
    Run (Int × data_kallsyms_it × World) :=
  let r1 := crypto_rng_get_bytes h w ⟨0, 0, 0, 0⟩ 4
  if w.BYTES_TO_FETCH = 0 then Run.fault Fault.divide_error
  else if threshold w.BYTES_TO_FETCH = 0 then Run.fault Fault.divide_error
  else if r1.1.pack % threshold w.BYTES_TO_FETCH ≠ 0 then Run.done (0, dat, r1.2)
  else
    let r2 := crypto_rng_get_bytes h r1.2 r1.1 1
    let rem := rem_in_page h symaddr
    let bytes := bytes_to_pull dat.count_rem r2.1.b0 rem
    let r3 := crypto_rng_get_bytes h r2.2 r2.1 4
    if rem - bytes = 0 then Run.fault Fault.divide_error
    else
      let loc := symaddr + r3.1.pack % (rem - bytes)
      match iterate_kallsyms_loop h loc bytes 0 dat r3.2 with
      | Run.fault f => Run.fault f
      | Run.out_of_fuel => Run.out_of_fuel
      | Run.done (dat1, w1) =>
        Run.done (if dat1.count_rem = 0 then 1 else 0, dat1, w1)

/-! ## The enumerator and `proc_read` -/

/-- Modelled from the spec: `kallsyms_on_each_symbol` is kernel code reached
through a kprobe and is not in the repository. Following the enumerator
contract, the callback is invoked once per entry, in order, until it returns
a non-zero value or the entries are exhausted. -/
def kallsyms_on_each_symbol (h : Host) :
    List Nat → World → data_kallsyms_it → Run (Int × data_kallsyms_it × World)
  | [], w, dat => Run.done (0, dat, w)
  | a :: rest, w, dat =>
    match iterate_kallsyms h w dat a with
    | Run.fault f => Run.fault f
    | Run.out_of_fuel => Run.out_of_fuel
    | Run.done (r, dat1, w1) =>
      if r ≠ 0 then Run.done (r, dat1, w1)
      else kallsyms_on_each_symbol h rest w1 dat1

/-- The loop `while (dat.count_rem > 0) _kallsyms_on_each_symbol(...)` of
lines 115-116, with a budget of passes. -/
def sampling_loop (h : Host) :
    Nat → World → data_kallsyms_it → Run (data_kallsyms_it × World)
  | 0, w, dat => if dat.count_rem > 0 then Run.out_of_fuel else Run.done (dat, w)
  | fuel + 1, w, dat =>
    if dat.count_rem > 0 then
      match kallsyms_on_each_symbol h (h.kallsyms w.passes)
          { w with passes := w.passes + 1 } dat with
      | Run.fault f => Run.fault f
      | Run.out_of_fuel => Run.out_of_fuel
      | Run.done (_, dat1, w1) => sampling_loop h fuel w1 dat1
    else Run.done (dat, w)

/-- Modelled from the spec: `copy_to_user(dst, src, n)` is kernel code; the user
buffer is the list of its writable bytes. The result is the new user buffer
and the number of bytes that could not be copied. -/
def copy_to_user (ubuf src : List Nat) (n : Nat) : List Nat × Nat :=
  if n ≤ ubuf.length then (src.take n ++ ubuf.drop n, 0)
  else (src.take ubuf.length, n - ubuf.length)

/-- What a call of `proc_read` leaves behind: the return value, `*offset`, the
user buffer and the state. -/
structure ReadResult where
  ret : Int
  offset : Int
  ubuf : List Nat
  w : World
deriving DecidableEq, Repr

/-- The struct `dat` built at lines 108-114 for a target length. -/
def proc_read_init (bytes_cache : Nat) : data_kallsyms_it :=
  { buf := (List.replicate (size_add bytes_cache 1) 0).set bytes_cache 0,
    count_rem := bytes_cache,
    bytes_cache := bytes_cache }

/-- The handler `proc_read(file, buf, count, offset)`. -/
def proc_read (h : Host) (fuel : Nat) (w : World) (ubuf : List Nat) (count : Nat)
    (offset : Int) : Run ReadResult :=
  let bytes_cache := w.BYTES_TO_FETCH
  if offset > 0 then Run.done ⟨0, offset, ubuf, w⟩
  else if count < size_add bytes_cache 1 then Run.done ⟨-EINVAL, offset, ubuf, w⟩
  else if h.kzalloc_ok (size_add bytes_cache 1) = false then Run.fault Fault.null_deref
  else
    match sampling_loop h fuel w (proc_read_init bytes_cache) with
    | Run.fault f => Run.fault f
    | Run.out_of_fuel => Run.out_of_fuel
    | Run.done (dat1, w1) =>
      let len := size_add bytes_cache 1
      let c := copy_to_user ubuf dat1.buf len
      if c.2 ≠ 0 then Run.done ⟨-EFAULT, to_ssize len, c.1, w1⟩
      else Run.done ⟨to_ssize (size_add bytes_cache 1), to_ssize len, c.1, w1⟩

/-! ## `proc_write` -/

/-- The digit loop of the kernel helper for base 10: the value of the leading
decimal digits and the rest of the string. -/
def parse_integer : List Nat → Nat → Nat → Nat × Nat × List Nat
  | [], res, rv => (res, rv, [])
  | c :: s, res, rv =>
    if 48 ≤ c ∧ c ≤ 57 then parse_integer s (res * 10 + (c - 48)) (rv + 1)
    else (res, rv, c :: s)

/-- Modelled from the spec: `kstrtou32(s, 10, &res)` is kernel code outside the
repository. It takes an optional `+`, at least one decimal digit, an optional
single newline and then the terminator; anything else is `-EINVAL`, a value
that does not fit 32 bits is `-ERANGE`. The string ends at its first zero byte
(or at the end of the list). The result is the return code and the value. -/
def kstrtou32 (s : List Nat) : Int × Nat :=
  let s0 := s.takeWhile (fun c => c ≠ 0)
  let s1 := if s0.head? = some 43 then s0.tail else s0
  match parse_integer s1 0 0 with
  | (res, rv, rest) =>
    if SIZE_MOD ≤ res then (-ERANGE, 0)
    else if rv = 0 then (-EINVAL, 0)
    else if rest = [] ∨ rest = [10] then
      if U32_MOD ≤ res then (-ERANGE, 0) else (0, res)
    else (-EINVAL, 0)

/-- The eleven bytes of `nbuf` after `copy_from_user` of `n` bytes and
`nbuf[10] = 0`: the copied bytes, then whatever the uninitialised array held
(`stack`), then the terminator. -/
def write_nbuf (ubuf : List Nat) (n : Nat) (stack : Nat → Nat) : List Nat :=
  (ubuf.take n).map (fun c => c % 256)
    ++ (List.range' n (10 - n)).map (fun i => stack i % 256) ++ [0]

/-- The handler `proc_write(file, buf, count, offset)`. `ubuf` holds the
readable bytes at `buf`; `stack` is the indeterminate initial content of the
local array `nbuf`. The result is the return value and the new state. -/
def proc_write (w : World) (ubuf : List Nat) (count : Nat) (stack : Nat → Nat) :
    Int × World :=
  let n := min count 10
  if ubuf.length < n then (-EFAULT, w)
  else
    let r := kstrtou32 (write_nbuf ubuf n stack)
    let ret := u32_of_int r.1
    if ret ≠ 0 then (to_ssize ret, w)
    else if r.2 = 0 then (-EINVAL, w)
    else (to_ssize count, { w with BYTES_TO_FETCH := r.2 })

/-! ## The accumulator invariant -/

/-- The state of the accumulator for target length `N`, given the log of the
addresses read so far: the first `N - count_rem` positions hold non-zero bytes
that were read from memory, every later position up to `N` is still zero. -/
structure Inv (h : Host) (N : Nat) (dat : data_kallsyms_it) (reads : List Nat) : Prop where
  cache : dat.bytes_cache = N
  le : dat.count_rem ≤ N
  len : dat.buf.length = N + 1
  filled : ∀ i, i < N - dat.count_rem →
    ∃ a v, a ∈ reads ∧ h.mem a = some v ∧ v % 256 ≠ 0 ∧ dat.buf[i]? = some (v % 256)
  zero : ∀ i, N - dat.count_rem ≤ i → i ≤ N → dat.buf[i]? = some 0

/-- The invariant for a session that started when the read log had `n`
entries: only addresses logged after that point count as sampled. -/
def InvAt (h : Host) (N n : Nat) (dat : data_kallsyms_it) (w : World) : Prop :=
  n ≤ w.reads.length ∧ Inv h N dat (w.reads.drop n)

/-! ## The extraction loop as a fold over the bytes it reads -/

/-- The body of `if (b != 0)` at lines 90-91: store `b` at index
`bytes_cache - count_rem` and decrement `count_rem`. -/
def store_byte (dat : data_kallsyms_it) (b : Nat) : data_kallsyms_it :=
  { dat with
    buf := dat.buf.set (size_sub dat.bytes_cache dat.count_rem) b,
    count_rem := size_sub dat.count_rem 1 }

/-- The effect of the `for` loop on the accumulator, given the bytes it reads in
order: every non-zero byte is stored, every zero byte is skipped. -/
def store_bytes (dat : data_kallsyms_it) : List Nat → data_kallsyms_it
  | [] => dat
  | b :: bs => if b ≠ 0 then store_bytes (store_byte dat b) bs else store_bytes dat bs

/-- The bytes (as `char` values) at the `len` addresses from `start` on; an
unmapped address counts as 0 here, the loop itself faults on it. -/
def read_bytes (h : Host) (start len : Nat) : List Nat :=
  (List.range' start len).map (fun a => (h.mem a).getD 0 % 256)

/-- The non-zero bytes of a list, in order. -/
def nonzero_bytes (bs : List Nat) : List Nat := bs.filter (fun b => b ≠ 0)

/-- The buffer indices at which `store_bytes` stores, in the order of the
stores: the index expression `bytes_cache - count_rem` of line 90 at each
non-zero byte. -/
def write_indices (dat : data_kallsyms_it) : List Nat → List Nat
  | [] => []
  | b :: bs =>
    if b ≠ 0 then
      size_sub dat.bytes_cache dat.count_rem :: write_indices (store_byte dat b) bs
    else write_indices dat bs

/-- The accumulator states a session for target length `N` can be in between
two callbacks: the fresh state built by `proc_read`, and every state a returning
call of `iterate_kallsyms` produces from such a state, for any entry and any
state of the generator. -/
inductive Reachable (h : Host) (N : Nat) : data_kallsyms_it → Prop where
  | fresh : Reachable h N (proc_read_init N)
  | step (w : World) (dat : data_kallsyms_it) (symaddr : Nat) (r : Int)
      (dat1 : data_kallsyms_it) (w1 : World) :
      Reachable h N dat → iterate_kallsyms h w dat symaddr = Run.done (r, dat1, w1) →
      Reachable h N dat1

/-- The invariant of the accumulator alone: the first `N - count_rem` bytes are
non-zero, the remaining `count_rem + 1` bytes (terminator included) are zero. -/
structure AccInv (N : Nat) (dat : data_kallsyms_it) : Prop where
  cache : dat.bytes_cache = N
  le : dat.count_rem ≤ N
  len : dat.buf.length = N + 1
  filled : ∀ b, b ∈ dat.buf.take (N - dat.count_rem) → b ≠ 0
  rest : dat.buf.drop (N - dat.count_rem) = List.replicate (dat.count_rem + 1) 0

/-! ## Comparing two runs -/

/-- The outcome of a run with its value replaced by a function of it. -/
def Run.map {α β : Type} (f : α → β) : Run α → Run β
  | Run.done a => Run.done (f a)
  | Run.fault e => Run.fault e
  | Run.out_of_fuel => Run.out_of_fuel

/-- Two outcomes of the same kind whose values are related. -/
def RunRel {α : Type} (R : α → α → Prop) : Run α → Run α → Prop
  | Run.done a, Run.done b => R a b
  | Run.fault e, Run.fault f => e = f
  | Run.out_of_fuel, Run.out_of_fuel => True
  | _, _ => False

/-- Two sessions get the same inputs: the same page size, memory and allocator,
the same target length, the same entropy bytes from their cursors on, and the
same entries in every pass from their pass counters on. The cursors, the pass
counters and the read logs themselves may differ. -/
def SameInputs (h1 : Host) (w1 : World) (h2 : Host) (w2 : World) : Prop :=
  h1.PAGE_SIZE = h2.PAGE_SIZE ∧ h1.mem = h2.mem ∧ h1.kzalloc_ok = h2.kzalloc_ok ∧
  w1.BYTES_TO_FETCH = w2.BYTES_TO_FETCH ∧
  (∀ i, h1.entropy (w1.rng_pos + i) % 256 = h2.entropy (w2.rng_pos + i) % 256) ∧
  (∀ p, h1.kallsyms (w1.passes + p) = h2.kallsyms (w2.passes + p))

/-- What the caller of `proc_read` observes: the return value, the new offset
and the content of its buffer. -/
def observed (res : ReadResult) : Int × Int × List Nat := (res.ret, res.offset, res.ubuf)

/-! ## Specification-side definitions -/

/-- The number a text of decimal digits denotes, as the specification of the
write interface understands "base-10 textual unsigned integer". -/
def decimal_value (digits : List Nat) : Nat :=
  digits.foldl (fun acc c => acc * 10 + (c - 48)) 0

/-- The byte count of one extraction as the specification words it: the run
length is the draw reduced modulo 16, the count is the minimum of the remaining
capacity, the run length and the page window, reduced modulo 16 once more. -/
def spec_actual_len (remaining draw page_remaining : Nat) : Nat :=
  min (min remaining (draw % 16)) page_remaining % 16

/-! ## Concrete hosts used to run the model -/

/-- A host with 4 KiB pages whose memory holds a zero byte at every address
divisible by four and the low byte of the address elsewhere. The first pass
visits the symbol at 4096, every later pass the symbol at 8293. The generator
accepts every entry, draws run length 5 and start offset 0. -/
def demoHost : Host :=
  { PAGE_SIZE := 4096,
    mem := fun a => some (if a % 4 = 0 then 0 else a % 256),
    kallsyms := fun p => if p = 0 then [4096] else [8293],
    entropy := fun i => if i % 9 = 4 then 5 else 0,
    kzalloc_ok := fun _ => true }

/-- A fresh state with target length 3. -/
def demoWorld : World := { BYTES_TO_FETCH := 3, rng_pos := 0, reads := [], passes := 0 }

/-- The state `demoHost` reaches from `demoWorld` after a full session. -/
def demoWorldDone : World :=
  { BYTES_TO_FETCH := 3, rng_pos := 18, reads := [4096, 4097, 4098, 8293], passes := 2 }

/-- The accumulator `demoHost` reaches from `demoWorld` after a full session. -/
def demoDatDone : data_kallsyms_it := { buf := [1, 2, 101, 0], count_rem := 0, bytes_cache := 3 }

/-- What a read of 32 bytes on `demoHost` from a fresh state leaves behind. -/
def demoRead32 : ReadResult :=
  { ret := 33,
    offset := 33,
    ubuf := [1, 2, 3, 101, 102, 103, 105, 101, 102, 103, 105, 101, 102, 103, 105, 101, 102,
      103, 105, 101, 102, 103, 105, 101, 102, 103, 105, 101, 102, 103, 105, 101, 0],
    w := { BYTES_TO_FETCH := 32,
           rng_pos := 81,
           reads := [4096, 4097, 4098, 4099, 4100, 8293, 8294, 8295, 8296, 8297, 8293, 8294,
             8295, 8296, 8297, 8293, 8294, 8295, 8296, 8297, 8293, 8294, 8295, 8296, 8297,
             8293, 8294, 8295, 8296, 8297, 8293, 8294, 8295, 8296, 8297, 8293, 8294, 8295,
             8296, 8297, 8293],
           passes := 9 } }

/-! ## The draws of one callback, by position in the entropy stream -/

/-- The `u32` read back from the four stream bytes at positions `pos .. pos + 3`. -/
def u32_at (h : Host) (pos : Nat) : Nat :=
  h.entropy pos % 256 + 256 * (h.entropy (pos + 1) % 256)
    + 65536 * (h.entropy (pos + 2) % 256) + 16777216 * (h.entropy (pos + 3) % 256)

/-- The stream byte at position `pos`. -/
def u8_at (h : Host) (pos : Nat) : Nat := h.entropy pos % 256

/-- The end of `iterate_kallsyms` (line 94) applied to the outcome of the `for` loop. -/
def finish_callback :
    Run (data_kallsyms_it × World) → Run (Int × data_kallsyms_it × World)
  | Run.fault f => Run.fault f
  | Run.out_of_fuel => Run.out_of_fuel
  | Run.done (dat1, w1) => Run.done (if dat1.count_rem = 0 then 1 else 0, dat1, w1)

/-- The value of the local `bytes` (line 83) in a call of the callback that
starts in state `w` with accumulator `dat` on the symbol at `symaddr`. -/
def cb_bytes (h : Host) (w : World) (dat : data_kallsyms_it) (symaddr : Nat) : Nat :=
  bytes_to_pull dat.count_rem (u8_at h (w.rng_pos + 4)) (rem_in_page h symaddr)

/-- The value of the local `loc` (line 86), as an address, in the same call. -/
def cb_loc (h : Host) (w : World) (dat : data_kallsyms_it) (symaddr : Nat) : Nat :=
  symaddr + u32_at h (w.rng_pos + 5) % (rem_in_page h symaddr - cb_bytes h w dat symaddr)

/-- The host `demoHost` with a generator whose first draw is the `u32` 262144. -/
def lateWriteHost : Host :=
  { PAGE_SIZE := 4096,
    mem := fun a => some (if a % 4 = 0 then 0 else a % 256),
    kallsyms := fun p => if p = 0 then [4096] else [8293],
    entropy := fun i => if i = 2 then 4 else 0,
    kzalloc_ok := fun _ => true }

/-- A state in which `BYTES_TO_FETCH` holds 4. -/
def lateWriteWorld : World := { BYTES_TO_FETCH := 4, rng_pos := 0, reads := [], passes := 0 }

/-- The host `demoHost` with a generator whose run-length draw is 21. -/
def wideDrawHost : Host :=
  { PAGE_SIZE := 4096,
    mem := fun a => some (if a % 4 = 0 then 0 else a % 256),
    kallsyms := fun p => if p = 0 then [4096] else [8293],
    entropy := fun i => if i % 9 = 4 then 21 else 0,
    kzalloc_ok := fun _ => true }

/-- A fresh state with target length 20. -/
def wideDrawWorld : World := { BYTES_TO_FETCH := 20, rng_pos := 0, reads := [], passes := 0 }

/-- The host `demoHost` with a memory that holds a zero byte at every address
and a single symbol at 4096 in every pass. -/
def zeroHost : Host :=
  { PAGE_SIZE := 4096,
    mem := fun _ => some 0,
    kallsyms := fun _ => [4096],
    entropy := fun i => if i % 9 = 4 then 5 else 0,
    kzalloc_ok := fun _ => true }

/-- The entropy stream of the scenario, seen from the cursor of `w`: every
acceptance draw and every offset draw is 0, every run-length draw is 5. -/
def ScenarioStream (h : Host) (w : World) : Prop :=
  ∀ i, h.entropy (w.rng_pos + i) % 256 = if i % 9 = 4 then 5 else 0

/-- A host for the scenario: 4 KiB pages, six symbols that each have 64 bytes
left in their page, windows that start with the bytes 1, 2, 3 followed by
zeros. -/
def scenarioHost : Host :=
  { PAGE_SIZE := 4096,
    mem := fun a => some (if 4032 ≤ a % 4096 ∧ a % 4096 < 4035 then a % 4096 - 4031 else 0),
    kallsyms := fun _ => [4032, 8128, 12224, 16320, 20416, 24512],
    entropy := fun i => if i % 9 = 4 then 5 else 0,
    kzalloc_ok := fun _ => true }

/-- A fresh state with target length 16. -/
def scenarioWorld : World := { BYTES_TO_FETCH := 16, rng_pos := 0, reads := [], passes := 0 }

/-- The host `scenarioHost` with windows that start with two zero bytes followed
by the bytes 1, 2, 3. -/
def scenarioHostLate : Host :=
  { PAGE_SIZE := 4096,
    mem := fun a => some (if 4034 ≤ a % 4096 ∧ a % 4096 < 4037 then a % 4096 - 4033 else 0),
    kallsyms := fun _ => [4032, 8128, 12224, 16320, 20416, 24512],
    entropy := fun i => if i % 9 = 4 then 5 else 0,
    kzalloc_ok := fun _ => true }

/-- The state `demoWorld` with the cursor of the generator nine bytes further
and an older entry in the read log. -/
def demoWorldLater : World := { BYTES_TO_FETCH := 3, rng_pos := 9, reads := [77], passes := 0 }

/-! ## Arithmetic facts -/

theorem size_sub_eq (a b : Nat) (hb : b ≤ a) (ha : a < SIZE_MOD) : size_sub a b = a - b := by
  unfold size_sub SIZE_MOD at *
  norm_num at *
  omega

theorem size_add_eq (a b : Nat) (h : a + b < SIZE_MOD) : size_add a b = a + b := by
  unfold size_add
  exact Nat.mod_eq_of_lt h

theorem min3_le_left (a b c : Nat) : min3 a b c ≤ a := by
  unfold min3
  omega

theorem min3_le_right (a b c : Nat) : min3 a b c ≤ c := by
  unfold min3
  omega

theorem bytes_to_pull_le_count (r d p : Nat) : bytes_to_pull r d p ≤ r := by
  unfold bytes_to_pull
  exact le_trans (Nat.mod_le _ _) (min3_le_left r d p)

theorem bytes_to_pull_le_rem (r d p : Nat) : bytes_to_pull r d p ≤ p := by
  unfold bytes_to_pull
  exact le_trans (Nat.mod_le _ _) (min3_le_right r d p)

theorem bytes_to_pull_lt (r d p : Nat) : bytes_to_pull r d p < 16 := by
  unfold bytes_to_pull
  exact Nat.mod_lt _ (by decide)

theorem inv_mono {h : Host} {N : Nat} {dat : data_kallsyms_it} {r r1 : List Nat}
    (hi : Inv h N dat r) (hsub : ∀ a, a ∈ r → a ∈ r1) : Inv h N dat r1 := by
  refine ⟨hi.cache, hi.le, hi.len, ?_, hi.zero⟩
  intro i hlt
  obtain ⟨a, v, ha, hm, hv, hb⟩ := hi.filled i hlt
  exact ⟨a, v, hsub a ha, hm, hv, hb⟩

theorem inv_init (h : Host) (N : Nat) (hN : N + 1 < SIZE_MOD) (r : List Nat) :
    Inv h N (proc_read_init N) r := by
  have hlen : size_add N 1 = N + 1 := size_add_eq N 1 hN
  refine ⟨rfl, le_refl _, ?_, ?_, ?_⟩
  · simp [proc_read_init, hlen]
  · intro i hlt
    simp [proc_read_init] at hlt
  · intro i _ hle
    simp only [proc_read_init, hlen]
    rw [List.getElem?_set]
    split
    · simp
    · rw [List.getElem?_replicate]
      simp
      omega

/-- One store of a non-zero byte keeps the invariant. -/
theorem inv_store {h : Host} {N : Nat} {dat : data_kallsyms_it} {r : List Nat}
    (hi : Inv h N dat r) (hN : N < SIZE_MOD) (hpos : 0 < dat.count_rem)
    (a v : Nat) (hm : h.mem a = some v) (hv : v % 256 ≠ 0) :
    Inv h N { dat with
        buf := dat.buf.set (size_sub dat.bytes_cache dat.count_rem) (v % 256),
        count_rem := size_sub dat.count_rem 1 } (r ++ [a]) := by
  have hle := hi.le
  have hidx : size_sub dat.bytes_cache dat.count_rem = N - dat.count_rem := by
    rw [hi.cache]
    exact size_sub_eq N dat.count_rem hle hN
  have hdec : size_sub dat.count_rem 1 = dat.count_rem - 1 :=
    size_sub_eq dat.count_rem 1 hpos (lt_of_le_of_lt hle hN)
  refine ⟨hi.cache, ?_, ?_, ?_, ?_⟩
  · simp only [hdec]
    omega
  · simp [hi.len]
  · intro i hlt
    simp only [hdec] at hlt
    simp only [hidx]
    by_cases hEq : N - dat.count_rem = i
    · refine ⟨a, v, by simp, hm, hv, ?_⟩
      rw [List.getElem?_set, if_pos hEq, if_pos (by rw [hi.len]; omega)]
    · obtain ⟨a1, v1, ha1, hm1, hv1, hb1⟩ := hi.filled i (by omega)
      refine ⟨a1, v1, by simp [ha1], hm1, hv1, ?_⟩
      rw [List.getElem?_set, if_neg hEq]
      exact hb1
  · intro i hge hle1
    simp only [hdec] at hge
    simp only [hidx]
    rw [List.getElem?_set, if_neg (by omega)]
    exact hi.zero i (by omega) hle1

theorem invAt_init (h : Host) (N : Nat) (hN : N + 1 < SIZE_MOD) (w : World) :
    InvAt h N w.reads.length (proc_read_init N) w :=
  ⟨le_refl _, inv_init h N hN _⟩

theorem invAt_of_reads_eq {h : Host} {N n : Nat} {dat : data_kallsyms_it} {w w1 : World}
    (hi : InvAt h N n dat w) (hr : w1.reads = w.reads) : InvAt h N n dat w1 := by
  unfold InvAt at *
  rw [hr]
  exact hi

theorem invAt_skip {h : Host} {N n : Nat} {dat : data_kallsyms_it} {w : World}
    (hi : InvAt h N n dat w) (a : Nat) :
    InvAt h N n dat { w with reads := w.reads ++ [a] } := by
  obtain ⟨hn, hinv⟩ := hi
  refine ⟨by simp; omega, ?_⟩
  simp only [List.drop_append_of_le_length hn]
  exact inv_mono hinv (fun x hx => by simp [hx])

theorem invAt_store {h : Host} {N n : Nat} {dat : data_kallsyms_it} {w : World}
    (hi : InvAt h N n dat w) (hN : N < SIZE_MOD) (hpos : 0 < dat.count_rem)
    (a v : Nat) (hm : h.mem a = some v) (hv : v % 256 ≠ 0) :
    InvAt h N n { dat with
        buf := dat.buf.set (size_sub dat.bytes_cache dat.count_rem) (v % 256),
        count_rem := size_sub dat.count_rem 1 }
      { w with reads := w.reads ++ [a] } := by
  obtain ⟨hn, hinv⟩ := hi
  refine ⟨by simp; omega, ?_⟩
  simp only [List.drop_append_of_le_length hn]
  exact inv_store hinv hN hpos a v hm hv

/-- The extraction loop keeps the invariant when it has at most `count_rem`
iterations to run. -/
theorem iterate_kallsyms_loop_inv (h : Host) (N n loc : Nat) (hN : N < SIZE_MOD) :
    ∀ (k i : Nat) (dat : data_kallsyms_it) (w : World) (dat1 : data_kallsyms_it) (w1 : World),
      InvAt h N n dat w → k ≤ dat.count_rem →
      iterate_kallsyms_loop h loc k i dat w = Run.done (dat1, w1) →
      InvAt h N n dat1 w1 := by
  intro k
  induction k with
  | zero =>
    intro i dat w dat1 w1 hi _ hrun
    simp only [iterate_kallsyms_loop, Run.done.injEq, Prod.mk.injEq] at hrun
    rw [← hrun.1, ← hrun.2]
    exact hi
  | succ k ih =>
    intro i dat w dat1 w1 hi hk hrun
    unfold iterate_kallsyms_loop at hrun
    cases hm : h.mem (loc + i) with
    | none => simp [hm] at hrun
    | some v =>
      simp only [hm] at hrun
      by_cases hv : v % 256 ≠ 0
      · rw [if_pos hv] at hrun
        have hpos : 0 < dat.count_rem := by omega
        have hle := hi.2.le
        have hdec : size_sub dat.count_rem 1 = dat.count_rem - 1 :=
          size_sub_eq dat.count_rem 1 hpos (lt_of_le_of_lt hle hN)
        refine ih (i + 1) _ _ dat1 w1 (invAt_store hi hN hpos (loc + i) v hm hv) ?_ hrun
        simp only [hdec]
        omega
      · rw [if_neg hv] at hrun
        exact ih (i + 1) dat _ dat1 w1 (invAt_skip hi (loc + i)) (by omega) hrun

/-- The callback keeps the invariant. -/
theorem iterate_kallsyms_inv (h : Host) (N n : Nat) (hN : N < SIZE_MOD)
    (w : World) (dat : data_kallsyms_it) (symaddr : Nat)
    (r : Int) (dat1 : data_kallsyms_it) (w1 : World)
    (hi : InvAt h N n dat w)
    (hrun : iterate_kallsyms h w dat symaddr = Run.done (r, dat1, w1)) :
    InvAt h N n dat1 w1 := by
  unfold iterate_kallsyms at hrun
  simp only at hrun
  split at hrun
  · simp at hrun
  split at hrun
  · simp at hrun
  split at hrun
  · simp only [Run.done.injEq, Prod.mk.injEq] at hrun
    obtain ⟨_, hd, hw⟩ := hrun
    subst hd hw
    exact invAt_of_reads_eq hi rfl
  split at hrun
  · simp at hrun
  split at hrun
  · simp at hrun
  · simp at hrun
  · rename_i dat2 w2 hloop
    simp only [Run.done.injEq, Prod.mk.injEq] at hrun
    obtain ⟨_, hd, hw⟩ := hrun
    subst hd hw
    refine iterate_kallsyms_loop_inv h N n _ hN _ 0 dat _ dat2 w2
      ?_ (bytes_to_pull_le_count _ _ _) hloop
    exact invAt_of_reads_eq hi rfl

/-- One enumeration pass keeps the invariant. -/
theorem kallsyms_on_each_symbol_inv (h : Host) (N n : Nat) (hN : N < SIZE_MOD) :
    ∀ (syms : List Nat) (w : World) (dat : data_kallsyms_it)
      (r : Int) (dat1 : data_kallsyms_it) (w1 : World),
      InvAt h N n dat w →
      kallsyms_on_each_symbol h syms w dat = Run.done (r, dat1, w1) →
      InvAt h N n dat1 w1 := by
  intro syms
  induction syms with
  | nil =>
    intro w dat r dat1 w1 hi hrun
    simp only [kallsyms_on_each_symbol, Run.done.injEq, Prod.mk.injEq] at hrun
    obtain ⟨_, hd, hw⟩ := hrun
    subst hd hw
    exact hi
  | cons a rest ih =>
    intro w dat r dat1 w1 hi hrun
    unfold kallsyms_on_each_symbol at hrun
    split at hrun
    · simp at hrun
    · simp at hrun
    · rename_i r2 dat2 w2 hcb
      have hi2 := iterate_kallsyms_inv h N n hN w dat a r2 dat2 w2 hi hcb
      split at hrun
      · simp only [Run.done.injEq, Prod.mk.injEq] at hrun
        obtain ⟨_, hd, hw⟩ := hrun
        subst hd hw
        exact hi2
      · exact ih w2 dat2 r dat1 w1 hi2 hrun

/-- When the sampling loop finishes, the invariant holds and nothing remains
to be fetched. -/
theorem sampling_loop_inv (h : Host) (N n : Nat) (hN : N < SIZE_MOD) :
    ∀ (fuel : Nat) (w : World) (dat : data_kallsyms_it)
      (dat1 : data_kallsyms_it) (w1 : World),
      InvAt h N n dat w →
      sampling_loop h fuel w dat = Run.done (dat1, w1) →
      InvAt h N n dat1 w1 ∧ dat1.count_rem = 0 := by
  intro fuel
  induction fuel with
  | zero =>
    intro w dat dat1 w1 hi hrun
    unfold sampling_loop at hrun
    split at hrun
    · simp at hrun
    · rename_i hz
      simp only [Run.done.injEq, Prod.mk.injEq] at hrun
      obtain ⟨hd, hw⟩ := hrun
      subst hd hw
      exact ⟨hi, by omega⟩
  | succ fuel ih =>
    intro w dat dat1 w1 hi hrun
    unfold sampling_loop at hrun
    split at hrun
    · split at hrun
      · simp at hrun
      · simp at hrun
      · rename_i r2 dat2 w2 hpass
        have hi1 : InvAt h N n dat { w with passes := w.passes + 1 } := invAt_of_reads_eq hi rfl
        have hi2 := kallsyms_on_each_symbol_inv h N n hN _ _ dat r2 dat2 w2 hi1 hpass
        exact ih w2 dat2 dat1 w1 hi2 hrun
    · rename_i hz
      simp only [Run.done.injEq, Prod.mk.injEq] at hrun
      obtain ⟨hd, hw⟩ := hrun
      subst hd hw
      exact ⟨hi, by omega⟩

/-- What a finished sampling loop leaves in the buffer, for a session started
from `proc_read_init N`. -/
theorem sampling_loop_done (h : Host) (fuel : Nat) (w : World) (N : Nat)
    (hN : N + 1 < SIZE_MOD) (dat1 : data_kallsyms_it) (w1 : World)
    (hrun : sampling_loop h fuel w (proc_read_init N) = Run.done (dat1, w1)) :
    dat1.count_rem = 0 ∧ dat1.buf.length = N + 1 ∧ dat1.buf[N]? = some 0 ∧
    ∀ i, i < N → ∃ a v, a ∈ w1.reads.drop w.reads.length ∧ h.mem a = some v ∧
      v % 256 ≠ 0 ∧ dat1.buf[i]? = some (v % 256) := by
  have hN1 : N < SIZE_MOD := by omega
  obtain ⟨⟨_, hinv⟩, hz⟩ := sampling_loop_inv h N w.reads.length hN1 fuel w _ dat1 w1
    (invAt_init h N hN w) hrun
  refine ⟨hz, hinv.len, hinv.zero N (by omega) (le_refl _), ?_⟩
  intro i hlt
  exact hinv.filled i (by omega)

theorem to_ssize_eq (n : Nat) (hn : n < 2 ^ 63) : to_ssize n = (n : Int) := by
  have hmod : n % SIZE_MOD = n := Nat.mod_eq_of_lt (by unfold SIZE_MOD; omega)
  unfold to_ssize
  rw [hmod, if_pos hn]

/-- A read at a non-positive offset into a large enough, writable buffer that
returns at all has run the sampling loop to its end, returns `N + 1`, sets the
offset to `N + 1` and has copied the whole kernel buffer to the caller. -/
theorem proc_read_done (h : Host) (fuel : Nat) (w : World) (ubuf : List Nat)
    (count : Nat) (offset : Int) (res : ReadResult)
    (hoff : offset ≤ 0)
    (hN : w.BYTES_TO_FETCH + 1 < 2 ^ 63)
    (hcount : w.BYTES_TO_FETCH + 1 ≤ count) (hcap : count ≤ ubuf.length)
    (hrun : proc_read h fuel w ubuf count offset = Run.done res) :
    ∃ dat1, sampling_loop h fuel w (proc_read_init w.BYTES_TO_FETCH) = Run.done (dat1, res.w) ∧
      res.ret = (w.BYTES_TO_FETCH : Int) + 1 ∧ res.offset = (w.BYTES_TO_FETCH : Int) + 1 ∧
      res.ubuf = dat1.buf.take (w.BYTES_TO_FETCH + 1) ++ ubuf.drop (w.BYTES_TO_FETCH + 1) := by
  have hlen : size_add w.BYTES_TO_FETCH 1 = w.BYTES_TO_FETCH + 1 :=
    size_add_eq _ _ (by unfold SIZE_MOD; omega)
  have hss : to_ssize (w.BYTES_TO_FETCH + 1) = (w.BYTES_TO_FETCH : Int) + 1 := by
    rw [to_ssize_eq _ hN]
    push_cast
    rfl
  unfold proc_read at hrun
  simp only [hlen] at hrun
  rw [if_neg (by omega), if_neg (by omega)] at hrun
  split at hrun
  · simp at hrun
  split at hrun
  · simp at hrun
  · simp at hrun
  · rename_i dat1 w1 hloop
    have hcopy : copy_to_user ubuf dat1.buf (w.BYTES_TO_FETCH + 1)
        = (dat1.buf.take (w.BYTES_TO_FETCH + 1) ++ ubuf.drop (w.BYTES_TO_FETCH + 1), 0) := by
      unfold copy_to_user
      rw [if_pos (by omega)]
    rw [hcopy] at hrun
    simp only [ne_eq, not_true_eq_false, if_false, Run.done.injEq] at hrun
    subst hrun
    exact ⟨dat1, hloop, hss, hss, rfl⟩

/-! ## C1: a finished session holds `N` non-zero sampled bytes -/

/-- C1: for every target length `N` (in particular every `N ≥ 1`) whose
successor fits `size_t`, every enumerator, every memory content and every
entropy stream: whenever the sampling loop of `proc_read` finishes, `count_rem`
is 0, the buffer has `N + 1` bytes, and each of the positions `0..N-1` holds a
non-zero byte that was read from memory during this session. -/
theorem sampling_loop_yields_nonzero_bytes (h : Host) (fuel : Nat) (w : World) (N : Nat)
    (hN : N + 1 < SIZE_MOD) (dat1 : data_kallsyms_it) (w1 : World)
    (hrun : sampling_loop h fuel w (proc_read_init N) = Run.done (dat1, w1)) :
    dat1.count_rem = 0 ∧ dat1.buf.length = N + 1 ∧ (dat1.buf.take N).length = N ∧
    (∀ b, b ∈ dat1.buf.take N → b ≠ 0) ∧
    ∀ i, i < N → ∃ a v, a ∈ w1.reads.drop w.reads.length ∧ h.mem a = some v ∧
      v % 256 ≠ 0 ∧ dat1.buf[i]? = some (v % 256) := by
  obtain ⟨hz, hlen, _, hfill⟩ := sampling_loop_done h fuel w N hN dat1 w1 hrun
  refine ⟨hz, hlen, by simp [hlen], ?_, hfill⟩
  intro b hb
  obtain ⟨i, hget⟩ := List.mem_iff_getElem?.mp hb
  have hi : i < N := by
    by_contra hge
    rw [List.getElem?_eq_none (by simp [hlen]; omega)] at hget
    exact Option.noConfusion hget
  rw [List.getElem?_take_of_lt hi] at hget
  obtain ⟨a, v, _, _, hv, hbuf⟩ := hfill i hi
  rw [hbuf] at hget
  cases hget
  exact hv

/-- Witness for C1: on `demoHost` a session for 3 bytes finishes within two
passes and leaves the three non-zero bytes 1, 2, 101 before the terminator. -/
theorem sampling_loop_yields_nonzero_bytes_witness :
    sampling_loop demoHost 2 demoWorld (proc_read_init 3) = Run.done (demoDatDone, demoWorldDone) ∧
    (demoDatDone.count_rem = 0 ∧ demoDatDone.buf.length = 3 + 1 ∧
      (demoDatDone.buf.take 3).length = 3 ∧
      (∀ b, b ∈ demoDatDone.buf.take 3 → b ≠ 0) ∧
      ∀ i, i < 3 → ∃ a v, a ∈ demoWorldDone.reads.drop demoWorld.reads.length ∧
        demoHost.mem a = some v ∧ v % 256 ≠ 0 ∧ demoDatDone.buf[i]? = some (v % 256)) :=
  ⟨by decide,
   sampling_loop_yields_nonzero_bytes demoHost 2 demoWorld 3 (by decide)
     demoDatDone demoWorldDone (by decide)⟩

/-! ## C2: a completed read -/

/-- C2: for every target length `N ≥ 1` (with `N + 1` below `2 ^ 63`), a
`proc_read` at offset 0 with `count ≥ N + 1` into a caller buffer that really
has `count` writable bytes, if it completes, returns exactly `N + 1`, sets the
stream position to `N + 1`, and the caller buffer starts with `N` non-zero
bytes sampled from memory during the call, followed by a zero byte at index
`N`; the bytes of the caller buffer after that are untouched. -/
theorem proc_read_completed_read (h : Host) (fuel : Nat) (w : World) (ubuf : List Nat)
    (count : Nat) (res : ReadResult)
    (hN1 : 1 ≤ w.BYTES_TO_FETCH) (hN : w.BYTES_TO_FETCH + 1 < 2 ^ 63)
    (hcount : w.BYTES_TO_FETCH + 1 ≤ count) (hcap : count ≤ ubuf.length)
    (hrun : proc_read h fuel w ubuf count 0 = Run.done res) :
    res.ret = (w.BYTES_TO_FETCH : Int) + 1 ∧
    res.offset = (w.BYTES_TO_FETCH : Int) + 1 ∧
    0 < res.offset ∧
    res.ubuf.length = ubuf.length ∧
    (∀ i, i < w.BYTES_TO_FETCH → ∃ a v, a ∈ res.w.reads.drop w.reads.length ∧
      h.mem a = some v ∧ v % 256 ≠ 0 ∧ res.ubuf[i]? = some (v % 256)) ∧
    res.ubuf[w.BYTES_TO_FETCH]? = some 0 ∧
    res.ubuf.drop (w.BYTES_TO_FETCH + 1) = ubuf.drop (w.BYTES_TO_FETCH + 1) := by
  obtain ⟨dat1, hloop, hret, hoffs, hbuf⟩ :=
    proc_read_done h fuel w ubuf count 0 res (le_refl _) hN hcount hcap hrun
  obtain ⟨_, hlen, hterm, hfill⟩ :=
    sampling_loop_done h fuel w w.BYTES_TO_FETCH (by unfold SIZE_MOD; omega) dat1 res.w hloop
  have htake : dat1.buf.take (w.BYTES_TO_FETCH + 1) = dat1.buf :=
    List.take_of_length_le (by omega)
  rw [htake] at hbuf
  refine ⟨hret, hoffs, by omega, ?_, ?_, ?_, ?_⟩
  · rw [hbuf]
    simp [hlen]
    omega
  · intro i hi
    obtain ⟨a, v, ha, hm, hv, hget⟩ := hfill i hi
    refine ⟨a, v, ha, hm, hv, ?_⟩
    rw [hbuf, List.getElem?_append_left (by omega)]
    exact hget
  · rw [hbuf, List.getElem?_append_left (by omega)]
    exact hterm
  · rw [hbuf, List.drop_append_of_le_length (by omega), ← hlen]
    simp

/-- Witness for C2: on `demoHost` a read of 3 bytes at offset 0 into a buffer of
six bytes returns 4, moves the offset to 4 and delivers 1, 2, 101, 0. -/
theorem proc_read_completed_read_witness :
    proc_read demoHost 2 demoWorld [9, 9, 9, 9, 9, 9] 6 0
      = Run.done ⟨4, 4, [1, 2, 101, 0, 9, 9], demoWorldDone⟩ ∧
    (4 : Int) = (demoWorld.BYTES_TO_FETCH : Int) + 1 ∧
    ([1, 2, 101, 0, 9, 9] : List Nat)[demoWorld.BYTES_TO_FETCH]? = some 0 :=
  ⟨by decide,
   (proc_read_completed_read demoHost 2 demoWorld [9, 9, 9, 9, 9, 9] 6
      ⟨4, 4, [1, 2, 101, 0, 9, 9], demoWorldDone⟩
      (by decide) (by decide) (by decide) (by decide) (by decide)).1,
   (proc_read_completed_read demoHost 2 demoWorld [9, 9, 9, 9, 9, 9] 6
      ⟨4, 4, [1, 2, 101, 0, 9, 9], demoWorldDone⟩
      (by decide) (by decide) (by decide) (by decide) (by decide)).2.2.2.2.2.1⟩

/-! ## C3: reads at a non-zero offset -/

/-- Reads at a positive offset, where the guard of line 104 fires: for every
stream offset greater than 0, every count and every configured target length,
`proc_read` returns 0, requests no enumeration pass, draws no entropy, reads no
memory, writes nothing to the caller and leaves the offset unchanged. -/
theorem proc_read_positive_offset (h : Host) (fuel : Nat) (w : World) (ubuf : List Nat)
    (count : Nat) (offset : Int) (hoff : 0 < offset) :
    proc_read h fuel w ubuf count offset = Run.done ⟨0, offset, ubuf, w⟩ := by
  unfold proc_read
  simp only
  rw [if_pos hoff]

/-- A read at offset 5 on `demoHost` ends at once with 0 bytes. -/
theorem proc_read_positive_offset_witness :
    (0 : Int) < 5 ∧
    proc_read demoHost 2 demoWorld [9, 9, 9, 9, 9, 9] 6 5
      = Run.done ⟨0, 5, [9, 9, 9, 9, 9, 9], demoWorld⟩ :=
  ⟨by decide, proc_read_positive_offset demoHost 2 demoWorld [9, 9, 9, 9, 9, 9] 6 5 (by decide)⟩

/-- C4: for every target length `N` (with `N + 1` below `2 ^ 63`) a read at
offset 0 with `count < N + 1` returns `-EINVAL`, leaves the state untouched (no
pass, no draw, no memory read), writes nothing to the caller and leaves the
offset unchanged; and any call, at any offset, that returns `-EINVAL` has
`count < N + 1` and has changed nothing. -/
theorem proc_read_short_buffer (h : Host) (fuel : Nat) (w : World) (ubuf : List Nat)
    (count : Nat) (hN : w.BYTES_TO_FETCH + 1 < 2 ^ 63) :
    (count < w.BYTES_TO_FETCH + 1 →
      proc_read h fuel w ubuf count 0 = Run.done ⟨-EINVAL, 0, ubuf, w⟩) ∧
    (∀ (offset : Int) (res : ReadResult),
      proc_read h fuel w ubuf count offset = Run.done res → res.ret = -EINVAL →
      count < w.BYTES_TO_FETCH + 1 ∧ res = ⟨-EINVAL, offset, ubuf, w⟩) := by
  have hlen : size_add w.BYTES_TO_FETCH 1 = w.BYTES_TO_FETCH + 1 :=
    size_add_eq _ _ (by unfold SIZE_MOD; omega)
  have hss : to_ssize (w.BYTES_TO_FETCH + 1) = (w.BYTES_TO_FETCH : Int) + 1 := by
    rw [to_ssize_eq _ hN]
    push_cast
    rfl
  constructor
  · intro hc
    unfold proc_read
    simp only [hlen]
    rw [if_neg (by decide), if_pos hc]
  · intro offset res hrun hret
    unfold proc_read at hrun
    simp only [hlen, hss] at hrun
    split at hrun
    · simp only [Run.done.injEq] at hrun
      subst hrun
      simp [EINVAL] at hret
    split at hrun
    · rename_i hc
      simp only [Run.done.injEq] at hrun
      subst hrun
      exact ⟨hc, rfl⟩
    split at hrun
    · simp at hrun
    split at hrun
    · simp at hrun
    · simp at hrun
    · split at hrun
      · simp only [Run.done.injEq] at hrun
        subst hrun
        simp [EINVAL, EFAULT] at hret
      · simp only [Run.done.injEq] at hrun
        subst hrun
        simp only [EINVAL] at hret
        omega

/-- Witness for C4: target length 3 and a caller buffer of 3 bytes. -/
theorem proc_read_short_buffer_witness :
    demoWorld.BYTES_TO_FETCH + 1 < 2 ^ 63 ∧ 3 < demoWorld.BYTES_TO_FETCH + 1 ∧
    proc_read demoHost 2 demoWorld [9, 9, 9] 3 0 = Run.done ⟨-EINVAL, 0, [9, 9, 9], demoWorld⟩ :=
  ⟨by decide, by decide,
   (proc_read_short_buffer demoHost 2 demoWorld [9, 9, 9] 3 (by decide)).1 (by decide)⟩

/-! ## C5, C6: rejected writes -/

/-- C5 (evaluation at the failing input): `proc_write` copies the single byte
`"0"` into the uninitialised array `nbuf` and terminates it only at index 10,
so the parsed string continues with whatever the array held. When the array
held `'5'` and a zero byte at indices 1 and 2 the write stores 5 and returns 1;
when it held a non-digit there the write returns the positive value
4294967274; only when index 1 held a zero byte is the write rejected with
`-EINVAL`. -/
theorem proc_write_zero_depends_on_residue (w : World) :
    proc_write w [48] 1 (fun i => if i = 1 then 53 else 0)
      = (1, { w with BYTES_TO_FETCH := 5 }) ∧
    proc_write w [48] 1 (fun _ => 120) = (4294967274, w) ∧
    proc_write w [48] 1 (fun _ => 0) = (-EINVAL, w) := by
  refine ⟨?_, ?_, ?_⟩ <;> rfl

/-- C6 (evaluation at the failing input): for the text `"abc"`, whatever the
rest of `nbuf` held, the error code `-EINVAL` of `kstrtou32` passes through the
`u32` variable `ret` and `proc_write` returns the positive value 4294967274;
`BYTES_TO_FETCH` is unchanged. -/
theorem proc_write_abc_returns_positive (w : World) (stack : Nat → Nat) :
    proc_write w [97, 98, 99] 3 stack = (4294967274, w) ∧
    (0 : Int) < 4294967274 ∧ u32_of_int (-EINVAL) = 4294967274 := by
  refine ⟨?_, by decide, by decide⟩
  have hk : kstrtou32 (write_nbuf [97, 98, 99] (min 3 10) stack) = (-EINVAL, 0) := by
    simp [write_nbuf, kstrtou32, parse_integer, List.takeWhile, SIZE_MOD]
  unfold proc_write
  simp only [hk]
  rfl

/-! ## C7: accepted writes -/

theorem parse_integer_digits (ds : List Nat) (hd : ∀ c, c ∈ ds → 48 ≤ c ∧ c ≤ 57) :
    ∀ res rv, parse_integer ds res rv
      = (ds.foldl (fun acc c => acc * 10 + (c - 48)) res, rv + ds.length, []) := by
  induction ds with
  | nil =>
    intro res rv
    simp [parse_integer]
  | cons c ds ih =>
    intro res rv
    have hc := hd c (by simp)
    unfold parse_integer
    rw [if_pos hc, ih (fun x hx => hd x (by simp [hx]))]
    simp
    omega

theorem takeWhile_nonzero_prefix (ds r : List Nat) (hd : ∀ c, c ∈ ds → c ≠ 0) :
    (ds ++ 0 :: r).takeWhile (fun c => c ≠ 0) = ds := by
  induction ds with
  | nil => simp [List.takeWhile]
  | cons c ds ih =>
    have hc := hd c (by simp)
    simp only [List.cons_append, List.takeWhile_cons]
    simp only [hc, ne_eq, not_false_eq_true, decide_True, if_true]
    rw [ih (fun x hx => hd x (by simp [hx]))]

theorem write_nbuf_digits (digits : List Nat) (stack : Nat → Nat)
    (hdig : ∀ c, c ∈ digits → 48 ≤ c ∧ c ≤ 57) (hlen : digits.length ≤ 10)
    (hterm : digits.length < 10 → stack digits.length % 256 = 0) :
    ∃ r, write_nbuf digits (min digits.length 10) stack = digits ++ 0 :: r := by
  have hmin : min digits.length 10 = digits.length := by omega
  have hmap : (digits.take digits.length).map (fun c => c % 256) = digits := by
    rw [List.take_length]
    conv_rhs => rw [← List.map_id digits]
    apply List.map_congr_left
    intro c hc
    have := hdig c hc
    simp only [id]
    omega
  unfold write_nbuf
  rw [hmin, hmap]
  by_cases h10 : digits.length < 10
  · obtain ⟨k, hk⟩ : ∃ k, 10 - digits.length = k + 1 := ⟨10 - digits.length - 1, by omega⟩
    rw [hk, List.range'_succ]
    refine ⟨(List.range' (digits.length + 1) k).map (fun i => stack i % 256) ++ [0], ?_⟩
    simp [hterm h10]
  · have hz : 10 - digits.length = 0 := by omega
    rw [hz]
    exact ⟨[], by simp⟩

theorem kstrtou32_digits (digits r : List Nat)
    (hdig : ∀ c, c ∈ digits → 48 ≤ c ∧ c ≤ 57)
    (hpos : 0 < decimal_value digits) (hfit : decimal_value digits < U32_MOD) :
    kstrtou32 (digits ++ 0 :: r) = (0, decimal_value digits) := by
  have htw := takeWhile_nonzero_prefix digits r (fun c hc => by have := hdig c hc; omega)
  unfold kstrtou32
  simp only [htw]
  have hs1 : ¬ digits.head? = some 43 := by
    cases digits with
    | nil => simp
    | cons c ds =>
      have := hdig c (by simp)
      simp only [List.head?_cons, Option.some.injEq]
      omega
  rw [if_neg hs1, parse_integer_digits digits hdig 0 0]
  have hne : digits.length ≠ 0 := by
    intro h0
    have : digits = [] := List.length_eq_zero.mp h0
    subst this
    simp [decimal_value] at hpos
  have hv : (List.foldl (fun acc c => acc * 10 + (c - 48)) 0 digits) = decimal_value digits := rfl
  simp only [hv, zero_add]
  have h64 : ¬ SIZE_MOD ≤ decimal_value digits := by
    unfold SIZE_MOD
    unfold U32_MOD at hfit
    omega
  rw [if_neg h64, if_neg hne]
  have h32 : ¬ U32_MOD ≤ decimal_value digits := by omega
  simp [h32]

/-- C7 (as amended): for every input that consists of at most 10 decimal digits
whose value `v` is non-zero and fits 32 bits, and for which the byte of `nbuf`
right after the copied digits is a terminator (always the case for 10 digits,
where it is `nbuf[10]`), `proc_write` returns the number of input bytes and
stores `v` in `BYTES_TO_FETCH`; any completed read at offset 0 with a caller
buffer of at least `v + 1` bytes that follows returns `v + 1`. -/
theorem proc_write_stores_value (w : World) (digits : List Nat) (stack : Nat → Nat)
    (hdig : ∀ c, c ∈ digits → 48 ≤ c ∧ c ≤ 57) (hlen : digits.length ≤ 10)
    (hterm : digits.length < 10 → stack digits.length % 256 = 0)
    (hpos : 0 < decimal_value digits) (hfit : decimal_value digits < U32_MOD) :
    proc_write w digits digits.length stack
      = ((digits.length : Int), { w with BYTES_TO_FETCH := decimal_value digits }) ∧
    ∀ (h : Host) (fuel : Nat) (ubuf : List Nat) (count : Nat) (res : ReadResult),
      decimal_value digits + 1 ≤ count → count ≤ ubuf.length →
      proc_read h fuel (proc_write w digits digits.length stack).2 ubuf count 0 = Run.done res →
      res.ret = (decimal_value digits : Int) + 1 := by
  obtain ⟨r, hr⟩ := write_nbuf_digits digits stack hdig hlen hterm
  have hk := kstrtou32_digits digits r hdig hpos hfit
  have hw : proc_write w digits digits.length stack
      = ((digits.length : Int), { w with BYTES_TO_FETCH := decimal_value digits }) := by
    unfold proc_write
    simp only [hr, hk]
    rw [if_neg (by omega), if_neg (by decide), if_neg (by omega),
      to_ssize_eq _ (by omega)]
  refine ⟨hw, ?_⟩
  intro h fuel ubuf count res hcount hcap hrun
  rw [hw] at hrun
  unfold U32_MOD at hfit
  obtain ⟨_, _, hret, _⟩ := proc_read_done h fuel _ ubuf count 0 res (le_refl _)
    (by simp only; omega) hcount hcap hrun
  exact hret

/-- Witness for C7 (as amended): the text `"32"` followed by a terminator is
stored as target length 32, the write returns 2, and the next read on
`demoHost` returns 33. -/
theorem proc_write_stores_value_witness :
    proc_write demoWorld [51, 50] 2 (fun _ => 0)
      = (2, { demoWorld with BYTES_TO_FETCH := 32 }) ∧
    proc_read demoHost 9 (proc_write demoWorld [51, 50] 2 (fun _ => 0)).2
        (List.replicate 33 9) 33 0 = Run.done demoRead32 ∧
    demoRead32.ret = ((decimal_value [51, 50] : Nat) : Int) + 1 ∧
    demoRead32.ubuf.length = 33 :=
  ⟨(proc_write_stores_value demoWorld [51, 50] (fun _ => 0) (by decide) (by decide)
      (by decide) (by decide) (by decide)).1,
   by decide,
   (proc_write_stores_value demoWorld [51, 50] (fun _ => 0) (by decide) (by decide)
      (by decide) (by decide) (by decide)).2 demoHost 9 (List.replicate 33 9) 33 demoRead32
      (by decide) (by decide) (by decide),
   by decide⟩

/-- C7 fails as stated: the ten-digit text `"9999999999"` has a non-zero value,
but it does not fit 32 bits; nothing is stored and the write returns
4294967262. -/
theorem proc_write_ten_digits_rejected :
    decimal_value [57, 57, 57, 57, 57, 57, 57, 57, 57, 57] = 9999999999 ∧
    proc_write demoWorld [57, 57, 57, 57, 57, 57, 57, 57, 57, 57] 10 (fun _ => 0)
      = (4294967262, demoWorld) ∧
    demoWorld.BYTES_TO_FETCH = 3 := by
  decide

/-! ## C8: the threshold for large target lengths -/

theorem threshold_eq_zero_iff (N : Nat) (hN : 1 ≤ N) : threshold N = 0 ↔ 2 ^ 18 < N := by
  unfold threshold RAND_DET
  simp only [Nat.shiftLeft_eq]
  norm_num
  rw [Nat.div_eq_zero_iff (by omega)]

/-- C8 (the code at the failing inputs): for every target length above `2 ^ 18`
the threshold `(RAND_DET / BYTES_TO_FETCH) << 3` is 0 and `iterate_kallsyms`
evaluates `buf.pack % 0` for every entry, whatever the draw: the call ends in a
divide error instead of accepting the entry. -/
theorem iterate_kallsyms_zero_threshold (h : Host) (w : World) (dat : data_kallsyms_it)
    (symaddr : Nat) (hN : 2 ^ 18 < w.BYTES_TO_FETCH) :
    threshold w.BYTES_TO_FETCH = 0 ∧
    iterate_kallsyms h w dat symaddr = Run.fault Fault.divide_error := by
  have ht : threshold w.BYTES_TO_FETCH = 0 :=
    (threshold_eq_zero_iff _ (by omega)).mpr hN
  refine ⟨ht, ?_⟩
  unfold iterate_kallsyms
  simp only [ht]
  rw [if_neg (by omega)]
  rfl

/-- Witness for C8: target length `2 ^ 18 + 1` on `demoHost`. -/
theorem iterate_kallsyms_zero_threshold_witness :
    2 ^ 18 < ({ demoWorld with BYTES_TO_FETCH := 262145 } : World).BYTES_TO_FETCH ∧
    threshold 262145 = 0 ∧
    iterate_kallsyms demoHost { demoWorld with BYTES_TO_FETCH := 262145 }
      (proc_read_init 262145) 4096 = Run.fault Fault.divide_error :=
  ⟨by decide,
   iterate_kallsyms_zero_threshold demoHost { demoWorld with BYTES_TO_FETCH := 262145 }
     (proc_read_init 262145) 4096 (by decide)⟩

/-! ## C9: an entry whose page window equals the run length -/

/-- C9 (the code at the failing inputs): for every accepted entry whose
`rem_in_page` is at most the computed `bytes`, `iterate_kallsyms` does not skip
the entry: it evaluates `buf.pack % (rem_in_page - bytes)` with a zero modulus
and ends in a divide error. -/
theorem iterate_kallsyms_zero_window (h : Host) (w : World) (dat : data_kallsyms_it)
    (symaddr : Nat)
    (hN : w.BYTES_TO_FETCH ≠ 0) (hT : threshold w.BYTES_TO_FETCH ≠ 0)
    (hacc : (crypto_rng_get_bytes h w ⟨0, 0, 0, 0⟩ 4).1.pack % threshold w.BYTES_TO_FETCH = 0)
    (hwin : rem_in_page h symaddr ≤
      bytes_to_pull dat.count_rem
        (rng_byte h (crypto_rng_get_bytes h w ⟨0, 0, 0, 0⟩ 4).2 0) (rem_in_page h symaddr)) :
    iterate_kallsyms h w dat symaddr = Run.fault Fault.divide_error := by
  unfold iterate_kallsyms
  simp only
  rw [if_neg hN, if_neg hT, if_neg (by simpa using hacc)]
  have hz : rem_in_page h symaddr -
      bytes_to_pull dat.count_rem
        (crypto_rng_get_bytes h (crypto_rng_get_bytes h w ⟨0, 0, 0, 0⟩ 4).2
          (crypto_rng_get_bytes h w ⟨0, 0, 0, 0⟩ 4).1 1).1.b0 (rem_in_page h symaddr) = 0 := by
    have hb0 : (crypto_rng_get_bytes h (crypto_rng_get_bytes h w ⟨0, 0, 0, 0⟩ 4).2
          (crypto_rng_get_bytes h w ⟨0, 0, 0, 0⟩ 4).1 1).1.b0
        = rng_byte h (crypto_rng_get_bytes h w ⟨0, 0, 0, 0⟩ 4).2 0 := by
      simp [crypto_rng_get_bytes]
    rw [hb0]
    omega
  rw [if_pos hz]

/-- Witness for C9: the symbol at 4095 is the last byte of its page; with three
bytes remaining and run-length draw 5 the code computes `bytes = 1` and
`rem_in_page - bytes = 0`. -/
theorem iterate_kallsyms_zero_window_witness :
    rem_in_page demoHost 4095 = 1 ∧ bytes_to_pull 3 5 1 = 1 ∧
    iterate_kallsyms demoHost demoWorld (proc_read_init 3) 4095
      = Run.fault Fault.divide_error :=
  ⟨by decide, by decide,
   iterate_kallsyms_zero_window demoHost demoWorld (proc_read_init 3) 4095
     (by decide) (by decide) (by decide) (by decide)⟩

/-! ## C10: reads stay inside the page window -/

/-- The extraction loop logs exactly the addresses `loc + i, ..., loc + i + k - 1`
and touches no other part of the state. -/
theorem iterate_kallsyms_loop_reads (h : Host) (loc : Nat) :
    ∀ (k i : Nat) (dat : data_kallsyms_it) (w : World) (dat1 : data_kallsyms_it) (w1 : World),
      iterate_kallsyms_loop h loc k i dat w = Run.done (dat1, w1) →
      w1 = { w with reads := w.reads ++ List.range' (loc + i) k } := by
  intro k
  induction k with
  | zero =>
    intro i dat w dat1 w1 hrun
    simp only [iterate_kallsyms_loop, Run.done.injEq, Prod.mk.injEq] at hrun
    rw [← hrun.2]
    simp
  | succ k ih =>
    intro i dat w dat1 w1 hrun
    unfold iterate_kallsyms_loop at hrun
    cases hm : h.mem (loc + i) with
    | none => simp [hm] at hrun
    | some v =>
      simp only [hm] at hrun
      have hr : List.range' (loc + i) (k + 1) = (loc + i) :: List.range' (loc + (i + 1)) k := by
        rw [List.range'_succ]
        rfl
      split at hrun
      · rw [ih (i + 1) _ _ dat1 w1 hrun, hr]
        simp
      · rw [ih (i + 1) _ _ dat1 w1 hrun, hr]
        simp

/-- The extraction loop depends on memory only at the addresses it visits. -/
theorem iterate_kallsyms_loop_mem_congr (h : Host) (m : Nat → Option Nat) (loc : Nat) :
    ∀ (k i : Nat) (dat : data_kallsyms_it) (w : World),
      (∀ j, i ≤ j → j < i + k → m (loc + j) = h.mem (loc + j)) →
      iterate_kallsyms_loop { h with mem := m } loc k i dat w
        = iterate_kallsyms_loop h loc k i dat w := by
  intro k
  induction k with
  | zero =>
    intro i dat w _
    simp [iterate_kallsyms_loop]
  | succ k ih =>
    intro i dat w hm
    have h0 : m (loc + i) = h.mem (loc + i) := hm i (le_refl _) (by omega)
    have hrest : ∀ (d : data_kallsyms_it) (v : World),
        iterate_kallsyms_loop { h with mem := m } loc k (i + 1) d v
          = iterate_kallsyms_loop h loc k (i + 1) d v :=
      fun d v => ih (i + 1) d v (fun j hj1 hj2 => hm j (by omega) (by omega))
    unfold iterate_kallsyms_loop
    simp only [h0, hrest]

/-- The callback depends on memory only inside the page window of the entry. -/
theorem iterate_kallsyms_mem_congr (h : Host) (m : Nat → Option Nat) (w : World)
    (dat : data_kallsyms_it) (symaddr : Nat)
    (hm : ∀ a, symaddr ≤ a → a < symaddr + rem_in_page h symaddr → m a = h.mem a) :
    iterate_kallsyms { h with mem := m } w dat symaddr = iterate_kallsyms h w dat symaddr := by
  have hrng : ∀ (v : World) (b : Packed32) (n : Nat),
      crypto_rng_get_bytes { h with mem := m } v b n = crypto_rng_get_bytes h v b n :=
    fun _ _ _ => rfl
  have hrem : rem_in_page { h with mem := m } symaddr = rem_in_page h symaddr := rfl
  unfold iterate_kallsyms
  simp only [hrng, hrem]
  split
  · rfl
  split
  · rfl
  split
  · rfl
  split
  · rfl
  · rename_i hnz
    rw [iterate_kallsyms_loop_mem_congr h m _ _ 0 dat _ ?_]
    intro j _ hj
    have hlt := Nat.mod_lt
      (crypto_rng_get_bytes h (crypto_rng_get_bytes h (crypto_rng_get_bytes h w ⟨0, 0, 0, 0⟩ 4).2
          (crypto_rng_get_bytes h w ⟨0, 0, 0, 0⟩ 4).1 1).2
        (crypto_rng_get_bytes h (crypto_rng_get_bytes h w ⟨0, 0, 0, 0⟩ 4).2
          (crypto_rng_get_bytes h w ⟨0, 0, 0, 0⟩ 4).1 1).1 4).1.pack
      (Nat.pos_of_ne_zero hnz)
    apply hm
    · omega
    · omega

/-- What the callback adds to the read log when it returns. -/
theorem iterate_kallsyms_reads (h : Host) (w : World) (dat : data_kallsyms_it)
    (symaddr : Nat) (r : Int) (dat1 : data_kallsyms_it) (w1 : World)
    (hrun : iterate_kallsyms h w dat symaddr = Run.done (r, dat1, w1)) :
    ∃ off len, w1.reads = w.reads ++ List.range' (symaddr + off) len ∧
      off + len ≤ rem_in_page h symaddr := by
  unfold iterate_kallsyms at hrun
  simp only at hrun
  have hr1 : (crypto_rng_get_bytes h w ⟨0, 0, 0, 0⟩ 4).2.reads = w.reads := rfl
  generalize crypto_rng_get_bytes h w ⟨0, 0, 0, 0⟩ 4 = r1 at hrun hr1
  have hr2 : (crypto_rng_get_bytes h r1.2 r1.1 1).2.reads = r1.2.reads := rfl
  generalize crypto_rng_get_bytes h r1.2 r1.1 1 = r2 at hrun hr2
  have hr3 : (crypto_rng_get_bytes h r2.2 r2.1 4).2.reads = r2.2.reads := rfl
  generalize crypto_rng_get_bytes h r2.2 r2.1 4 = r3 at hrun hr3
  split at hrun
  · simp at hrun
  split at hrun
  · simp at hrun
  split at hrun
  · simp only [Run.done.injEq, Prod.mk.injEq] at hrun
    obtain ⟨_, _, hw⟩ := hrun
    subst hw
    exact ⟨0, 0, by simp [hr1], by omega⟩
  split at hrun
  · simp at hrun
  · rename_i hnz
    split at hrun
    · simp at hrun
    · simp at hrun
    · rename_i dat2 w2 hloop
      simp only [Run.done.injEq, Prod.mk.injEq] at hrun
      obtain ⟨_, _, hw⟩ := hrun
      subst hw
      have hw2 := iterate_kallsyms_loop_reads h _ _ 0 dat _ dat2 w2 hloop
      have hlt := Nat.mod_lt r3.1.pack (Nat.pos_of_ne_zero hnz)
      refine ⟨r3.1.pack % (rem_in_page h symaddr
          - bytes_to_pull dat.count_rem r2.1.b0 (rem_in_page h symaddr)),
        bytes_to_pull dat.count_rem r2.1.b0 (rem_in_page h symaddr), ?_, ?_⟩
      · rw [hw2]
        simp only [Nat.add_zero, hr3, hr2, hr1]
      · omega

/-- C10: for every entry, every entropy stream and every remaining count, when
`iterate_kallsyms` returns, the addresses it has read are the `len` consecutive
addresses `symaddr + off, ..., symaddr + off + len - 1` with
`off + len ≤ rem_in_page`, so each of them lies in
`[symaddr, symaddr + rem_in_page)`; and, returning or faulting, the outcome of
the call does not depend on memory outside that window. -/
theorem iterate_kallsyms_reads_in_page (h : Host) (w : World) (dat : data_kallsyms_it)
    (symaddr : Nat) :
    (∀ (r : Int) (dat1 : data_kallsyms_it) (w1 : World),
      iterate_kallsyms h w dat symaddr = Run.done (r, dat1, w1) →
      ∃ off len, w1.reads = w.reads ++ List.range' (symaddr + off) len ∧
        off + len ≤ rem_in_page h symaddr ∧
        ∀ a, a ∈ List.range' (symaddr + off) len →
          symaddr ≤ a ∧ a < symaddr + rem_in_page h symaddr) ∧
    ∀ m : Nat → Option Nat,
      (∀ a, symaddr ≤ a → a < symaddr + rem_in_page h symaddr → m a = h.mem a) →
      iterate_kallsyms { h with mem := m } w dat symaddr = iterate_kallsyms h w dat symaddr := by
  refine ⟨?_, fun m hm => iterate_kallsyms_mem_congr h m w dat symaddr hm⟩
  intro r dat1 w1 hrun
  obtain ⟨off, len, hreads, hle⟩ := iterate_kallsyms_reads h w dat symaddr r dat1 w1 hrun
  refine ⟨off, len, hreads, hle, ?_⟩
  intro a ha
  rw [List.mem_range'_1] at ha
  omega

/-- Witness for C10: on `demoHost` the entry at 4096 is accepted with three bytes
remaining; the call reads 4096, 4097 and 4098, all inside the page of the
entry. -/
theorem iterate_kallsyms_reads_in_page_witness :
    iterate_kallsyms demoHost demoWorld (proc_read_init 3) 4096
      = Run.done (0, ⟨[1, 2, 0, 0], 1, 3⟩, ⟨3, 9, [4096, 4097, 4098], 0⟩) ∧
    ∃ off len, ([4096, 4097, 4098] : List Nat) = demoWorld.reads ++ List.range' (4096 + off) len ∧
      off + len ≤ rem_in_page demoHost 4096 ∧
      ∀ a, a ∈ List.range' (4096 + off) len →
        4096 ≤ a ∧ a < 4096 + rem_in_page demoHost 4096 :=
  ⟨by decide,
   (iterate_kallsyms_reads_in_page demoHost demoWorld (proc_read_init 3) 4096).1
     0 ⟨[1, 2, 0, 0], 1, 3⟩ ⟨3, 9, [4096, 4097, 4098], 0⟩ (by decide)⟩

/-! ## The callback, case by case -/

/-- A rejected entry: four stream bytes are consumed, nothing else changes. -/
theorem iterate_kallsyms_rejected (h : Host) (w : World) (dat : data_kallsyms_it)
    (symaddr : Nat) (hN : w.BYTES_TO_FETCH ≠ 0) (hT : threshold w.BYTES_TO_FETCH ≠ 0)
    (hrej : u32_at h w.rng_pos % threshold w.BYTES_TO_FETCH ≠ 0) :
    iterate_kallsyms h w dat symaddr
      = Run.done (0, dat, { w with rng_pos := w.rng_pos + 4 }) := by
  have hpack : (crypto_rng_get_bytes h w ⟨0, 0, 0, 0⟩ 4).1.pack = u32_at h w.rng_pos := by
    simp [crypto_rng_get_bytes, rng_byte, Packed32.pack, u32_at]
  unfold iterate_kallsyms
  simp only [hpack]
  rw [if_neg hN, if_neg hT, if_pos hrej]
  rfl

/-- An accepted entry with a non-empty window for the start offset: the
run-length draw is the stream byte after the acceptance draw, the offset draw
the four bytes after that, and the loop starts with all nine bytes consumed. -/
theorem iterate_kallsyms_accepted (h : Host) (w : World) (dat : data_kallsyms_it)
    (symaddr : Nat) (hN : w.BYTES_TO_FETCH ≠ 0) (hT : threshold w.BYTES_TO_FETCH ≠ 0)
    (hacc : u32_at h w.rng_pos % threshold w.BYTES_TO_FETCH = 0)
    (hwin : rem_in_page h symaddr
      - bytes_to_pull dat.count_rem (u8_at h (w.rng_pos + 4)) (rem_in_page h symaddr) ≠ 0) :
    iterate_kallsyms h w dat symaddr
      = finish_callback
          (iterate_kallsyms_loop h
            (symaddr + u32_at h (w.rng_pos + 5) % (rem_in_page h symaddr
              - bytes_to_pull dat.count_rem (u8_at h (w.rng_pos + 4)) (rem_in_page h symaddr)))
            (bytes_to_pull dat.count_rem (u8_at h (w.rng_pos + 4)) (rem_in_page h symaddr))
            0 dat { w with rng_pos := w.rng_pos + 9 }) := by
  have hpack : (crypto_rng_get_bytes h w ⟨0, 0, 0, 0⟩ 4).1.pack = u32_at h w.rng_pos := by
    simp [crypto_rng_get_bytes, rng_byte, Packed32.pack, u32_at]
  have hb0 : (crypto_rng_get_bytes h (crypto_rng_get_bytes h w ⟨0, 0, 0, 0⟩ 4).2
      (crypto_rng_get_bytes h w ⟨0, 0, 0, 0⟩ 4).1 1).1.b0 = u8_at h (w.rng_pos + 4) := by
    simp [crypto_rng_get_bytes, rng_byte, u8_at]
  have hoff : (crypto_rng_get_bytes h
      (crypto_rng_get_bytes h (crypto_rng_get_bytes h w ⟨0, 0, 0, 0⟩ 4).2
        (crypto_rng_get_bytes h w ⟨0, 0, 0, 0⟩ 4).1 1).2
      (crypto_rng_get_bytes h (crypto_rng_get_bytes h w ⟨0, 0, 0, 0⟩ 4).2
        (crypto_rng_get_bytes h w ⟨0, 0, 0, 0⟩ 4).1 1).1 4).1.pack
      = u32_at h (w.rng_pos + 5) := by
    simp [crypto_rng_get_bytes, rng_byte, Packed32.pack, u32_at, Nat.add_assoc]
  have hw3 : (crypto_rng_get_bytes h
      (crypto_rng_get_bytes h (crypto_rng_get_bytes h w ⟨0, 0, 0, 0⟩ 4).2
        (crypto_rng_get_bytes h w ⟨0, 0, 0, 0⟩ 4).1 1).2
      (crypto_rng_get_bytes h (crypto_rng_get_bytes h w ⟨0, 0, 0, 0⟩ 4).2
        (crypto_rng_get_bytes h w ⟨0, 0, 0, 0⟩ 4).1 1).1 4).2
      = { w with rng_pos := w.rng_pos + 9 } := by
    simp [crypto_rng_get_bytes, Nat.add_assoc]
  unfold iterate_kallsyms
  simp only [hpack, hb0, hoff, hw3]
  rw [if_neg hN, if_neg hT, if_neg (by simpa using hacc), if_neg hwin]
  unfold finish_callback
  split <;> simp_all

/-- An accepted entry whose window for the start offset is empty. -/
theorem iterate_kallsyms_accepted_zero (h : Host) (w : World) (dat : data_kallsyms_it)
    (symaddr : Nat) (hN : w.BYTES_TO_FETCH ≠ 0) (hT : threshold w.BYTES_TO_FETCH ≠ 0)
    (hacc : u32_at h w.rng_pos % threshold w.BYTES_TO_FETCH = 0)
    (hwin : rem_in_page h symaddr
      - bytes_to_pull dat.count_rem (u8_at h (w.rng_pos + 4)) (rem_in_page h symaddr) = 0) :
    iterate_kallsyms h w dat symaddr = Run.fault Fault.divide_error := by
  have hpack : (crypto_rng_get_bytes h w ⟨0, 0, 0, 0⟩ 4).1.pack = u32_at h w.rng_pos := by
    simp [crypto_rng_get_bytes, rng_byte, Packed32.pack, u32_at]
  have hb0 : (crypto_rng_get_bytes h (crypto_rng_get_bytes h w ⟨0, 0, 0, 0⟩ 4).2
      (crypto_rng_get_bytes h w ⟨0, 0, 0, 0⟩ 4).1 1).1.b0 = u8_at h (w.rng_pos + 4) := by
    simp [crypto_rng_get_bytes, rng_byte, u8_at]
  unfold iterate_kallsyms
  simp only [hpack, hb0]
  rw [if_neg hN, if_neg hT, if_neg (by simpa using hacc), if_pos hwin]

/-- An accepted entry that returns has consumed nine stream bytes. -/
theorem iterate_kallsyms_accepted_rng_pos (h : Host) (w : World) (dat : data_kallsyms_it)
    (symaddr : Nat) (hN : w.BYTES_TO_FETCH ≠ 0) (hT : threshold w.BYTES_TO_FETCH ≠ 0)
    (hacc : u32_at h w.rng_pos % threshold w.BYTES_TO_FETCH = 0)
    (r : Int) (dat1 : data_kallsyms_it) (w1 : World)
    (hrun : iterate_kallsyms h w dat symaddr = Run.done (r, dat1, w1)) :
    w1.rng_pos = w.rng_pos + 9 := by
  by_cases hwin : rem_in_page h symaddr
      - bytes_to_pull dat.count_rem (u8_at h (w.rng_pos + 4)) (rem_in_page h symaddr) = 0
  · rw [iterate_kallsyms_accepted_zero h w dat symaddr hN hT hacc hwin] at hrun
    cases hrun
  · rw [iterate_kallsyms_accepted h w dat symaddr hN hT hacc hwin] at hrun
    unfold finish_callback at hrun
    split at hrun
    · cases hrun
    · cases hrun
    · rename_i dat2 w2 hloop
      simp only [Run.done.injEq, Prod.mk.injEq] at hrun
      obtain ⟨_, _, hw⟩ := hrun
      subst hw
      rw [iterate_kallsyms_loop_reads h _ _ 0 dat _ dat2 w2 hloop]

/-! ## C11: the threshold of a session in flight -/

/-- C11 (the code at the failing inputs): for every value `M` of the global
`BYTES_TO_FETCH` with `1 ≤ M ≤ 2 ^ 18` at the time of the callback, and every
session struct `dat` (whatever target length `dat.bytes_cache` it was started
with), the entry is rejected exactly when the acceptance draw is not a multiple
of `(2 ^ 18 / M) << 3`: the decision follows the global, not the length captured
at the start of the session. -/
theorem iterate_kallsyms_threshold_from_global (h : Host) (w : World)
    (dat : data_kallsyms_it) (symaddr : Nat)
    (hN1 : 1 ≤ w.BYTES_TO_FETCH) (hN : w.BYTES_TO_FETCH ≤ 2 ^ 18) :
    iterate_kallsyms h w dat symaddr = Run.done (0, dat, { w with rng_pos := w.rng_pos + 4 })
      ↔ u32_at h w.rng_pos % threshold w.BYTES_TO_FETCH ≠ 0 := by
  have hN0 : w.BYTES_TO_FETCH ≠ 0 := by omega
  have hT : threshold w.BYTES_TO_FETCH ≠ 0 := by
    intro hz
    have := (threshold_eq_zero_iff _ hN1).mp hz
    omega
  constructor
  · intro hrun hacc
    have := iterate_kallsyms_accepted_rng_pos h w dat symaddr hN0 hT hacc 0 dat _ hrun
    simp at this
  · intro hrej
    exact iterate_kallsyms_rejected h w dat symaddr hN0 hT hrej

/-- Witness for C11: a session started with target length 8 (threshold 262144)
meets the acceptance draw 262144 after `BYTES_TO_FETCH` was changed to 4
(threshold 524288): the draw is a multiple of the session's threshold, yet the
entry is rejected. -/
theorem iterate_kallsyms_threshold_from_global_witness :
    (proc_read_init 8).bytes_cache = 8 ∧ lateWriteWorld.BYTES_TO_FETCH = 4 ∧
    u32_at lateWriteHost lateWriteWorld.rng_pos = 262144 ∧
    u32_at lateWriteHost lateWriteWorld.rng_pos % threshold 8 = 0 ∧
    iterate_kallsyms lateWriteHost lateWriteWorld (proc_read_init 8) 4096
      = Run.done (0, proc_read_init 8, { lateWriteWorld with rng_pos := 4 }) :=
  ⟨by decide, by decide, by decide, by decide,
   (iterate_kallsyms_threshold_from_global lateWriteHost lateWriteWorld (proc_read_init 8) 4096
      (by decide) (by decide)).mpr (by decide)⟩

/-- An accepted entry that returns has run the extraction loop to its end. -/
theorem iterate_kallsyms_accepted_done (h : Host) (w : World) (dat : data_kallsyms_it)
    (symaddr : Nat) (hN : w.BYTES_TO_FETCH ≠ 0) (hT : threshold w.BYTES_TO_FETCH ≠ 0)
    (hacc : u32_at h w.rng_pos % threshold w.BYTES_TO_FETCH = 0)
    (r : Int) (dat1 : data_kallsyms_it) (w1 : World)
    (hrun : iterate_kallsyms h w dat symaddr = Run.done (r, dat1, w1)) :
    rem_in_page h symaddr
      - bytes_to_pull dat.count_rem (u8_at h (w.rng_pos + 4)) (rem_in_page h symaddr) ≠ 0 ∧
    iterate_kallsyms_loop h
      (symaddr + u32_at h (w.rng_pos + 5) % (rem_in_page h symaddr
        - bytes_to_pull dat.count_rem (u8_at h (w.rng_pos + 4)) (rem_in_page h symaddr)))
      (bytes_to_pull dat.count_rem (u8_at h (w.rng_pos + 4)) (rem_in_page h symaddr))
      0 dat { w with rng_pos := w.rng_pos + 9 } = Run.done (dat1, w1) ∧
    r = (if dat1.count_rem = 0 then 1 else 0) := by
  by_cases hwin : rem_in_page h symaddr
      - bytes_to_pull dat.count_rem (u8_at h (w.rng_pos + 4)) (rem_in_page h symaddr) = 0
  · rw [iterate_kallsyms_accepted_zero h w dat symaddr hN hT hacc hwin] at hrun
    cases hrun
  · rw [iterate_kallsyms_accepted h w dat symaddr hN hT hacc hwin] at hrun
    unfold finish_callback at hrun
    split at hrun
    · cases hrun
    · cases hrun
    · rename_i dat2 w2 hloop
      simp only [Run.done.injEq, Prod.mk.injEq] at hrun
      obtain ⟨hr, hd, hw⟩ := hrun
      subst hd hw
      exact ⟨hwin, hloop, hr.symm⟩

/-! ## C18: the order of the draws -/

/-- C18: for every entry and every state in which the threshold is defined and
non-zero, `iterate_kallsyms` takes the acceptance draw from the next four stream
bytes; a rejected entry consumes exactly those four bytes, returns 0 and leaves
the accumulator unchanged; an accepted entry takes its run-length draw from the
fifth byte and its offset draw from the sixth to ninth byte, enters the
extraction loop with all nine bytes consumed, and has consumed nine bytes
whenever it returns. -/
theorem iterate_kallsyms_draw_order (h : Host) (w : World) (dat : data_kallsyms_it)
    (symaddr : Nat) (hN : w.BYTES_TO_FETCH ≠ 0) (hT : threshold w.BYTES_TO_FETCH ≠ 0) :
    (crypto_rng_get_bytes h w ⟨0, 0, 0, 0⟩ 4).1.pack = u32_at h w.rng_pos ∧
    (u32_at h w.rng_pos % threshold w.BYTES_TO_FETCH ≠ 0 →
      iterate_kallsyms h w dat symaddr
        = Run.done (0, dat, { w with rng_pos := w.rng_pos + 4 })) ∧
    (u32_at h w.rng_pos % threshold w.BYTES_TO_FETCH = 0 →
      rem_in_page h symaddr
        - bytes_to_pull dat.count_rem (u8_at h (w.rng_pos + 4)) (rem_in_page h symaddr) ≠ 0 →
      iterate_kallsyms h w dat symaddr
        = finish_callback
            (iterate_kallsyms_loop h
              (symaddr + u32_at h (w.rng_pos + 5) % (rem_in_page h symaddr
                - bytes_to_pull dat.count_rem (u8_at h (w.rng_pos + 4)) (rem_in_page h symaddr)))
              (bytes_to_pull dat.count_rem (u8_at h (w.rng_pos + 4)) (rem_in_page h symaddr))
              0 dat { w with rng_pos := w.rng_pos + 9 })) ∧
    (u32_at h w.rng_pos % threshold w.BYTES_TO_FETCH = 0 →
      ∀ (r : Int) (dat1 : data_kallsyms_it) (w1 : World),
        iterate_kallsyms h w dat symaddr = Run.done (r, dat1, w1) →
        w1.rng_pos = w.rng_pos + 9) := by
  refine ⟨?_, ?_, ?_, ?_⟩
  · simp [crypto_rng_get_bytes, rng_byte, Packed32.pack, u32_at]
  · exact iterate_kallsyms_rejected h w dat symaddr hN hT
  · exact iterate_kallsyms_accepted h w dat symaddr hN hT
  · intro hacc r dat1 w1 hrun
    exact iterate_kallsyms_accepted_rng_pos h w dat symaddr hN hT hacc r dat1 w1 hrun

/-- Witness for C18: on `lateWriteHost` the first draw 262144 is rejected under
threshold 524288 and four bytes are consumed; on `demoHost` the first draw 0 is
accepted and nine bytes are consumed. -/
theorem iterate_kallsyms_draw_order_witness :
    iterate_kallsyms lateWriteHost lateWriteWorld (proc_read_init 4) 4096
      = Run.done (0, proc_read_init 4, { lateWriteWorld with rng_pos := 4 }) ∧
    (⟨3, 9, [4096, 4097, 4098], 0⟩ : World).rng_pos = demoWorld.rng_pos + 9 :=
  ⟨(iterate_kallsyms_draw_order lateWriteHost lateWriteWorld (proc_read_init 4) 4096
      (by decide) (by decide)).2.1 (by decide),
   (iterate_kallsyms_draw_order demoHost demoWorld (proc_read_init 3) 4096
      (by decide) (by decide)).2.2.2 (by decide) 0 ⟨[1, 2, 0, 0], 1, 3⟩
      ⟨3, 9, [4096, 4097, 4098], 0⟩ (by decide)⟩

/-! ## C19: bounds on the byte count and the page window -/

/-- C19: for every address, every remaining count and every run-length draw,
with a positive page size, the byte count `min3 (count_rem, draw, rem_in_page) % 16`
is at most 15, at most `count_rem` and at most `rem_in_page`, and `rem_in_page`
lies in `1 .. PAGE_SIZE`; so `rem_in_page - bytes` does not wrap: as a `size_t`
difference it is the exact difference whenever the page size fits `size_t`. -/
theorem bytes_to_pull_bounds (h : Host) (symaddr count_rem draw : Nat)
    (hP : 0 < h.PAGE_SIZE) :
    bytes_to_pull count_rem draw (rem_in_page h symaddr) ≤ 15 ∧
    bytes_to_pull count_rem draw (rem_in_page h symaddr) ≤ count_rem ∧
    bytes_to_pull count_rem draw (rem_in_page h symaddr) ≤ rem_in_page h symaddr ∧
    1 ≤ rem_in_page h symaddr ∧ rem_in_page h symaddr ≤ h.PAGE_SIZE ∧
    (h.PAGE_SIZE < SIZE_MOD →
      size_sub (rem_in_page h symaddr) (bytes_to_pull count_rem draw (rem_in_page h symaddr))
        = rem_in_page h symaddr - bytes_to_pull count_rem draw (rem_in_page h symaddr)) := by
  have h15 := bytes_to_pull_lt count_rem draw (rem_in_page h symaddr)
  have hc := bytes_to_pull_le_count count_rem draw (rem_in_page h symaddr)
  have hr := bytes_to_pull_le_rem count_rem draw (rem_in_page h symaddr)
  have hlt : symaddr % h.PAGE_SIZE < h.PAGE_SIZE := Nat.mod_lt _ hP
  have hrem : rem_in_page h symaddr = h.PAGE_SIZE - symaddr % h.PAGE_SIZE := rfl
  refine ⟨by omega, hc, hr, by omega, by omega, ?_⟩
  intro hfit
  exact size_sub_eq _ _ hr (by omega)

/-- Witness for C19: the symbol at 4095 on `demoHost`, three bytes remaining and
draw 5. -/
theorem bytes_to_pull_bounds_witness :
    0 < demoHost.PAGE_SIZE ∧ rem_in_page demoHost 4095 = 1 ∧
    bytes_to_pull 3 5 (rem_in_page demoHost 4095) ≤ rem_in_page demoHost 4095 :=
  ⟨by decide, by decide, (bytes_to_pull_bounds demoHost 4095 3 5 (by decide)).2.2.1⟩

/-! ## C13: the number of passes -/

/-- A read at a non-positive offset with a large enough count that returns has
run the sampling loop to its end. -/
theorem proc_read_done_loop (h : Host) (fuel : Nat) (w : World) (ubuf : List Nat)
    (count : Nat) (offset : Int) (res : ReadResult)
    (hoff : offset ≤ 0) (hN : w.BYTES_TO_FETCH + 1 < SIZE_MOD)
    (hcount : w.BYTES_TO_FETCH + 1 ≤ count)
    (hrun : proc_read h fuel w ubuf count offset = Run.done res) :
    ∃ dat1 w1, sampling_loop h fuel w (proc_read_init w.BYTES_TO_FETCH) = Run.done (dat1, w1) := by
  have hlen : size_add w.BYTES_TO_FETCH 1 = w.BYTES_TO_FETCH + 1 := size_add_eq _ _ hN
  unfold proc_read at hrun
  simp only [hlen] at hrun
  rw [if_neg (by omega), if_neg (by omega)] at hrun
  split at hrun
  · simp at hrun
  split at hrun
  · simp at hrun
  · simp at hrun
  · rename_i dat1 w1 hloop
    exact ⟨dat1, w1, hloop⟩

/-- On a memory without a non-zero byte the sampling loop for a positive target
length never finishes, whatever the pass budget. -/
theorem sampling_loop_zero_mem (h : Host) (fuel : Nat) (w : World) (N : Nat)
    (hN1 : 1 ≤ N) (hN : N + 1 < SIZE_MOD)
    (hzero : ∀ a v, h.mem a = some v → v % 256 = 0)
    (dat1 : data_kallsyms_it) (w1 : World) :
    sampling_loop h fuel w (proc_read_init N) ≠ Run.done (dat1, w1) := by
  intro hrun
  obtain ⟨_, _, _, hfill⟩ := sampling_loop_done h fuel w N hN dat1 w1 hrun
  obtain ⟨a, v, _, hm, hv, _⟩ := hfill 0 (by omega)
  exact hv (hzero a v hm)

/-- One pass over `zeroHost` with three bytes remaining: the entry is accepted,
three zero bytes are read, the accumulator is unchanged. -/
theorem zeroHost_pass (w : World) (hN : w.BYTES_TO_FETCH = 3) (hpos : w.rng_pos % 9 = 0) :
    kallsyms_on_each_symbol zeroHost [4096] w (proc_read_init 3)
      = Run.done (0, proc_read_init 3,
          { w with rng_pos := w.rng_pos + 9, reads := w.reads ++ [4096, 4097, 4098] }) := by
  have he : ∀ j, zeroHost.entropy (w.rng_pos + j) = if j % 9 = 4 then 5 else 0 := by
    intro j
    have : (w.rng_pos + j) % 9 = j % 9 := by omega
    simp [zeroHost, this]
  have hacc : u32_at zeroHost w.rng_pos = 0 := by
    have h0 := he 0
    simp only [Nat.add_zero] at h0
    simp [u32_at, h0, he 1, he 2, he 3]
  have hrun : u8_at zeroHost (w.rng_pos + 4) = 5 := by
    simp [u8_at, he 4]
  have hoff : u32_at zeroHost (w.rng_pos + 5) = 0 := by
    simp [u32_at, Nat.add_assoc, he 5, he 6, he 7, he 8]
  have hrem : rem_in_page zeroHost 4096 = 4096 := by decide
  have hb : bytes_to_pull (proc_read_init 3).count_rem 5 4096 = 3 := by decide
  have hcb := iterate_kallsyms_accepted zeroHost w (proc_read_init 3) 4096
    (by rw [hN]; decide) (by rw [hN]; decide) (by rw [hacc]; simp)
    (by rw [hrun, hrem, hb]; decide)
  rw [hrun, hrem, hb, hoff] at hcb
  unfold kallsyms_on_each_symbol
  rw [hcb]
  simp [finish_callback, iterate_kallsyms_loop, zeroHost, proc_read_init, kallsyms_on_each_symbol]

/-- On `zeroHost` the sampling loop for three bytes exhausts every pass budget. -/
theorem zeroHost_sampling_loop :
    ∀ (fuel : Nat) (w : World), w.BYTES_TO_FETCH = 3 → w.rng_pos % 9 = 0 →
      sampling_loop zeroHost fuel w (proc_read_init 3) = Run.out_of_fuel := by
  intro fuel
  induction fuel with
  | zero =>
    intro w _ _
    rfl
  | succ fuel ih =>
    intro w hN hpos
    unfold sampling_loop
    rw [if_pos (by decide)]
    have hk : zeroHost.kallsyms w.passes = [4096] := rfl
    rw [hk, zeroHost_pass { w with passes := w.passes + 1 } hN hpos]
    simp only
    exact ih _ hN (by simp only; omega)

/-- C13 (as amended): the sampling loop of `proc_read` has no bound on the number
of passes. For every host whose memory holds no non-zero byte, every target
length `N ≥ 1` and every pass budget, a read at offset 0 with `count ≥ N + 1`
does not return: it ends neither with a byte count nor with an error value. -/
theorem proc_read_no_pass_bound (h : Host) (fuel : Nat) (w : World) (ubuf : List Nat)
    (count : Nat) (hN1 : 1 ≤ w.BYTES_TO_FETCH) (hN : w.BYTES_TO_FETCH + 1 < SIZE_MOD)
    (hcount : w.BYTES_TO_FETCH + 1 ≤ count)
    (hzero : ∀ a v, h.mem a = some v → v % 256 = 0) :
    ∀ res, proc_read h fuel w ubuf count 0 ≠ Run.done res := by
  intro res hrun
  obtain ⟨dat1, w1, hloop⟩ :=
    proc_read_done_loop h fuel w ubuf count 0 res (le_refl _) hN hcount hrun
  exact sampling_loop_zero_mem h fuel w _ hN1 hN hzero dat1 w1 hloop

/-- Witness for C13 (as amended): on `zeroHost` a read of three bytes with a
budget of five passes is still running when the budget is spent. -/
theorem proc_read_no_pass_bound_witness :
    proc_read zeroHost 5 demoWorld [9, 9, 9, 9] 4 0 = Run.out_of_fuel ∧
    proc_read zeroHost 5 demoWorld [9, 9, 9, 9] 4 0
      ≠ Run.done ⟨4, 4, [0, 0, 0, 0], demoWorld⟩ :=
  ⟨by decide,
   proc_read_no_pass_bound zeroHost 5 demoWorld [9, 9, 9, 9] 4 (by decide) (by decide)
     (by decide) (fun _ _ hm => by cases hm; rfl) ⟨4, 4, [0, 0, 0, 0], demoWorld⟩⟩

/-- C13 fails as stated: on `zeroHost` every byte read is zero, and a read of
three bytes is still requesting passes after ten passes and after any other
number of passes; no failure is ever reported. -/
theorem proc_read_passes_forever :
    proc_read zeroHost 10 demoWorld [9, 9, 9, 9] 4 0 = Run.out_of_fuel ∧
    ¬ ∃ fuel, proc_read zeroHost fuel demoWorld [9, 9, 9, 9] 4 0 ≠ Run.out_of_fuel := by
  refine ⟨by decide, ?_⟩
  rintro ⟨fuel, hne⟩
  apply hne
  unfold proc_read
  simp only
  rw [if_neg (by decide), if_neg (by decide), if_neg (by decide)]
  have hloop := zeroHost_sampling_loop fuel demoWorld rfl (by decide)
  have hb : demoWorld.BYTES_TO_FETCH = 3 := rfl
  rw [hb, hloop]

/-! ## The extraction loop as a fold -/

theorem read_bytes_succ (h : Host) (start k : Nat) :
    read_bytes h start (k + 1) = ((h.mem start).getD 0 % 256) :: read_bytes h (start + 1) k := by
  simp [read_bytes, List.range'_succ]

/-- When every address of the run is mapped the loop returns, and its effect on
the accumulator is `store_bytes` of the bytes read. -/
theorem iterate_kallsyms_loop_eq (h : Host) (loc : Nat) :
    ∀ (k i : Nat) (dat : data_kallsyms_it) (w : World),
      (∀ j, j < k → (h.mem (loc + i + j)).isSome) →
      iterate_kallsyms_loop h loc k i dat w
        = Run.done (store_bytes dat (read_bytes h (loc + i) k),
            { w with reads := w.reads ++ List.range' (loc + i) k }) := by
  intro k
  induction k with
  | zero =>
    intro i dat w _
    simp [iterate_kallsyms_loop, read_bytes, store_bytes]
  | succ k ih =>
    intro i dat w hm
    have h0 := hm 0 (by omega)
    simp only [Nat.add_zero] at h0
    obtain ⟨v, hv⟩ := Option.isSome_iff_exists.mp h0
    have hrest : ∀ j, j < k → (h.mem (loc + (i + 1) + j)).isSome := by
      intro j hj
      have := hm (j + 1) (by omega)
      have he : loc + (i + 1) + j = loc + i + (j + 1) := by omega
      rw [he]
      exact this
    have hr : List.range' (loc + i) (k + 1) = (loc + i) :: List.range' (loc + (i + 1)) k := by
      rw [List.range'_succ]
      rfl
    unfold iterate_kallsyms_loop
    rw [read_bytes_succ, hv]
    simp only [Option.getD_some]
    have he : loc + i + 1 = loc + (i + 1) := by omega
    by_cases hb : v % 256 ≠ 0
    · rw [if_pos hb, ih (i + 1) _ _ hrest, hr, he]
      simp [store_bytes, store_byte, hb]
    · rw [if_neg hb, ih (i + 1) _ _ hrest, hr, he]
      simp [store_bytes, hb]

/-- A loop that returns has found every address of its run mapped. -/
theorem iterate_kallsyms_loop_mapped (h : Host) (loc : Nat) :
    ∀ (k i : Nat) (dat : data_kallsyms_it) (w : World) (dat1 : data_kallsyms_it) (w1 : World),
      iterate_kallsyms_loop h loc k i dat w = Run.done (dat1, w1) →
      ∀ j, j < k → (h.mem (loc + i + j)).isSome := by
  intro k
  induction k with
  | zero =>
    intro i dat w dat1 w1 _ j hj
    omega
  | succ k ih =>
    intro i dat w dat1 w1 hrun j hj
    unfold iterate_kallsyms_loop at hrun
    cases hm : h.mem (loc + i) with
    | none => simp [hm] at hrun
    | some v =>
      simp only [hm] at hrun
      cases j with
      | zero => simp [hm]
      | succ j =>
        have he : loc + i + (j + 1) = loc + (i + 1) + j := by omega
        rw [he]
        split at hrun
        · exact ih (i + 1) _ _ dat1 w1 hrun j (by omega)
        · exact ih (i + 1) _ _ dat1 w1 hrun j (by omega)

/-- A loop that returns has applied `store_bytes` of the bytes of its run. -/
theorem iterate_kallsyms_loop_done_eq (h : Host) (loc k i : Nat) (dat : data_kallsyms_it)
    (w : World) (dat1 : data_kallsyms_it) (w1 : World)
    (hrun : iterate_kallsyms_loop h loc k i dat w = Run.done (dat1, w1)) :
    dat1 = store_bytes dat (read_bytes h (loc + i) k) := by
  have hm := iterate_kallsyms_loop_mapped h loc k i dat w dat1 w1 hrun
  rw [iterate_kallsyms_loop_eq h loc k i dat w hm] at hrun
  simp only [Run.done.injEq, Prod.mk.injEq] at hrun
  exact hrun.1.symm

theorem take_succ_set (l : List Nat) (n b : Nat) (hn : n < l.length) :
    (l.set n b).take (n + 1) = l.take n ++ [b] := by
  rw [List.set_eq_take_append_cons_drop, if_pos hn, List.take_append_eq_append_take]
  have hlen : (List.take n l).length = n := by
    rw [List.length_take]
    omega
  rw [hlen, List.take_of_length_le (by omega)]
  simp

theorem nonzero_bytes_cons_zero (bs : List Nat) : nonzero_bytes (0 :: bs) = nonzero_bytes bs := by
  simp [nonzero_bytes]

theorem nonzero_bytes_cons_pos (b : Nat) (bs : List Nat) (hb : b ≠ 0) :
    nonzero_bytes (b :: bs) = b :: nonzero_bytes bs := by
  simp [nonzero_bytes, hb]

/-- The fold of the stores, in closed form: the non-zero bytes are laid down, in
order, right after the filled part; `count_rem` drops by their number; nothing
else in the buffer changes. -/
theorem store_bytes_spec :
    ∀ (bs : List Nat) (dat : data_kallsyms_it),
      dat.count_rem ≤ dat.bytes_cache → dat.bytes_cache < SIZE_MOD →
      dat.bytes_cache ≤ dat.buf.length → (nonzero_bytes bs).length ≤ dat.count_rem →
      (store_bytes dat bs).count_rem = dat.count_rem - (nonzero_bytes bs).length ∧
      (store_bytes dat bs).bytes_cache = dat.bytes_cache ∧
      (store_bytes dat bs).buf
        = dat.buf.take (dat.bytes_cache - dat.count_rem) ++ nonzero_bytes bs
          ++ dat.buf.drop (dat.bytes_cache - dat.count_rem + (nonzero_bytes bs).length) := by
  intro bs
  induction bs with
  | nil =>
    intro dat _ _ _ _
    simp [store_bytes, nonzero_bytes]
  | cons b bs ih =>
    intro dat hle hbc hlen hnz
    by_cases hb : b ≠ 0
    · rw [nonzero_bytes_cons_pos b bs hb] at hnz ⊢
      simp only [List.length_cons] at hnz ⊢
      have hidx : size_sub dat.bytes_cache dat.count_rem = dat.bytes_cache - dat.count_rem :=
        size_sub_eq _ _ hle hbc
      have hdec : size_sub dat.count_rem 1 = dat.count_rem - 1 :=
        size_sub_eq _ _ (by omega) (by omega)
      have hstep : store_bytes dat (b :: bs) = store_bytes (store_byte dat b) bs := by
        simp [store_bytes, hb]
      have hcr : (store_byte dat b).count_rem = dat.count_rem - 1 := by
        simp [store_byte, hdec]
      have hbc1 : (store_byte dat b).bytes_cache = dat.bytes_cache := rfl
      have hbuf : (store_byte dat b).buf
          = dat.buf.set (dat.bytes_cache - dat.count_rem) b := by
        simp [store_byte, hidx]
      obtain ⟨h1, h2, h3⟩ := ih (store_byte dat b) (by rw [hcr, hbc1]; omega)
        (by rw [hbc1]; exact hbc) (by rw [hbc1, hbuf]; simpa using hlen)
        (by rw [hcr]; omega)
      rw [hstep]
      refine ⟨by rw [h1, hcr]; omega, by rw [h2, hbc1], ?_⟩
      rw [h3, hcr, hbc1, hbuf]
      have hi1 : dat.bytes_cache - (dat.count_rem - 1) = dat.bytes_cache - dat.count_rem + 1 := by
        omega
      rw [hi1, take_succ_set _ _ _ (by omega), List.drop_set_of_lt _ _ (by omega)]
      have hi2 : dat.bytes_cache - dat.count_rem + 1 + (nonzero_bytes bs).length
          = dat.bytes_cache - dat.count_rem + ((nonzero_bytes bs).length + 1) := by omega
      rw [hi2]
      simp
    · have hb0 : b = 0 := by omega
      subst hb0
      rw [nonzero_bytes_cons_zero] at hnz ⊢
      have hstep : store_bytes dat (0 :: bs) = store_bytes dat bs := by
        simp [store_bytes]
      rw [hstep]
      exact ih dat hle hbc hlen hnz

theorem nonzero_bytes_length_le (bs : List Nat) : (nonzero_bytes bs).length ≤ bs.length := by
  unfold nonzero_bytes
  exact List.length_filter_le _ _

theorem read_bytes_length (h : Host) (start len : Nat) : (read_bytes h start len).length = len := by
  simp [read_bytes]

/-- An accepted entry whose run is mapped and whose window for the start offset
is not empty: the callback returns, and its effect is `store_bytes` of the
bytes of the run. -/
theorem iterate_kallsyms_accepted_eq (h : Host) (w : World) (dat : data_kallsyms_it)
    (symaddr : Nat) (hN : w.BYTES_TO_FETCH ≠ 0) (hT : threshold w.BYTES_TO_FETCH ≠ 0)
    (hacc : u32_at h w.rng_pos % threshold w.BYTES_TO_FETCH = 0)
    (hwin : cb_bytes h w dat symaddr < rem_in_page h symaddr)
    (hmap : ∀ j, j < cb_bytes h w dat symaddr → (h.mem (cb_loc h w dat symaddr + j)).isSome) :
    iterate_kallsyms h w dat symaddr
      = Run.done
          (if (store_bytes dat
              (read_bytes h (cb_loc h w dat symaddr) (cb_bytes h w dat symaddr))).count_rem = 0
            then 1 else 0,
           store_bytes dat (read_bytes h (cb_loc h w dat symaddr) (cb_bytes h w dat symaddr)),
           { w with rng_pos := w.rng_pos + 9,
                    reads := w.reads
                      ++ List.range' (cb_loc h w dat symaddr) (cb_bytes h w dat symaddr) }) := by
  have hwin1 : rem_in_page h symaddr
      - bytes_to_pull dat.count_rem (u8_at h (w.rng_pos + 4)) (rem_in_page h symaddr) ≠ 0 := by
    unfold cb_bytes at hwin
    omega
  rw [iterate_kallsyms_accepted h w dat symaddr hN hT hacc hwin1]
  have hloop := iterate_kallsyms_loop_eq h (cb_loc h w dat symaddr) (cb_bytes h w dat symaddr) 0
    dat { w with rng_pos := w.rng_pos + 9 } (by simpa using hmap)
  simp only [Nat.add_zero] at hloop
  unfold cb_loc cb_bytes at hloop ⊢
  rw [hloop]
  rfl

/-- The closed form of `store_bytes`, read at the filled part of the buffer. -/
theorem store_bytes_filled (bs : List Nat) (dat : data_kallsyms_it)
    (hle : dat.count_rem ≤ dat.bytes_cache) (hbc : dat.bytes_cache < SIZE_MOD)
    (hlen : dat.bytes_cache ≤ dat.buf.length) (hnz : (nonzero_bytes bs).length ≤ dat.count_rem) :
    (store_bytes dat bs).count_rem + (nonzero_bytes bs).length = dat.count_rem ∧
    (store_bytes dat bs).bytes_cache = dat.bytes_cache ∧
    (store_bytes dat bs).buf.length = dat.buf.length ∧
    (store_bytes dat bs).buf.take (dat.bytes_cache - (store_bytes dat bs).count_rem)
      = dat.buf.take (dat.bytes_cache - dat.count_rem) ++ nonzero_bytes bs ∧
    (store_bytes dat bs).buf.drop (dat.bytes_cache - (store_bytes dat bs).count_rem)
      = dat.buf.drop (dat.bytes_cache - (store_bytes dat bs).count_rem) := by
  obtain ⟨h1, h2, h3⟩ := store_bytes_spec bs dat hle hbc hlen hnz
  have hidx : dat.bytes_cache - (store_bytes dat bs).count_rem
      = dat.bytes_cache - dat.count_rem + (nonzero_bytes bs).length := by
    rw [h1]
    omega
  have hl : (List.take (dat.bytes_cache - dat.count_rem) dat.buf ++ nonzero_bytes bs).length
      = dat.bytes_cache - dat.count_rem + (nonzero_bytes bs).length := by
    rw [List.length_append, List.length_take]
    omega
  refine ⟨by rw [h1]; omega, h2, ?_, ?_, ?_⟩
  · rw [h3]
    simp only [List.length_append, List.length_take, List.length_drop]
    omega
  · rw [hidx, h3]
    exact List.take_left' hl
  · rw [hidx, h3]
    exact List.drop_left' hl

/-- Zero bytes change nothing: a run without a non-zero byte leaves the
accumulator as it was. -/
theorem store_bytes_all_zero :
    ∀ (bs : List Nat) (dat : data_kallsyms_it), nonzero_bytes bs = [] → store_bytes dat bs = dat := by
  intro bs
  induction bs with
  | nil =>
    intro dat _
    rfl
  | cons b bs ih =>
    intro dat hnz
    by_cases hb : b ≠ 0
    · rw [nonzero_bytes_cons_pos b bs hb] at hnz
      cases hnz
    · have hb0 : b = 0 := by omega
      subst hb0
      rw [nonzero_bytes_cons_zero] at hnz
      have hstep : store_bytes dat (0 :: bs) = store_bytes dat bs := by
        simp [store_bytes]
      rw [hstep]
      exact ih dat hnz

/-! ## C17: what one accepted entry adds to the accumulator -/

/-- C17: for every accepted entry with `bytes < rem_in_page` whose run can be
read, in every accumulator state with `count_rem ≤ bytes_cache` inside its
buffer: `iterate_kallsyms` returns; afterwards the filled part of the buffer is
the previous filled part followed by the non-zero bytes among the `bytes` bytes
read at `loc`, in read order; `count_rem` has dropped by exactly their number;
the rest of the buffer is unchanged; a run without a non-zero byte leaves the
accumulator as it was; and the return value is 1 when the new `count_rem` is 0
and 0 otherwise. -/
theorem iterate_kallsyms_appends_nonzero (h : Host) (w : World) (dat : data_kallsyms_it)
    (symaddr : Nat) (hN : w.BYTES_TO_FETCH ≠ 0) (hT : threshold w.BYTES_TO_FETCH ≠ 0)
    (hacc : u32_at h w.rng_pos % threshold w.BYTES_TO_FETCH = 0)
    (hwin : cb_bytes h w dat symaddr < rem_in_page h symaddr)
    (hmap : ∀ j, j < cb_bytes h w dat symaddr → (h.mem (cb_loc h w dat symaddr + j)).isSome)
    (hle : dat.count_rem ≤ dat.bytes_cache) (hbc : dat.bytes_cache < SIZE_MOD)
    (hlen : dat.bytes_cache ≤ dat.buf.length) :
    ∃ r dat1 w1, iterate_kallsyms h w dat symaddr = Run.done (r, dat1, w1) ∧
      dat1.buf.take (dat.bytes_cache - dat1.count_rem)
        = dat.buf.take (dat.bytes_cache - dat.count_rem)
          ++ nonzero_bytes (read_bytes h (cb_loc h w dat symaddr) (cb_bytes h w dat symaddr)) ∧
      dat1.count_rem
          + (nonzero_bytes
              (read_bytes h (cb_loc h w dat symaddr) (cb_bytes h w dat symaddr))).length
        = dat.count_rem ∧
      dat1.buf.drop (dat.bytes_cache - dat1.count_rem)
        = dat.buf.drop (dat.bytes_cache - dat1.count_rem) ∧
      dat1.bytes_cache = dat.bytes_cache ∧ dat1.buf.length = dat.buf.length ∧
      (nonzero_bytes (read_bytes h (cb_loc h w dat symaddr) (cb_bytes h w dat symaddr)) = [] →
        dat1 = dat) ∧
      (r = 1 ↔ dat1.count_rem = 0) ∧ (r = 0 ↔ dat1.count_rem ≠ 0) ∧
      w1.reads = w.reads ++ List.range' (cb_loc h w dat symaddr) (cb_bytes h w dat symaddr) := by
  have hrun := iterate_kallsyms_accepted_eq h w dat symaddr hN hT hacc hwin hmap
  have hnz : (nonzero_bytes
      (read_bytes h (cb_loc h w dat symaddr) (cb_bytes h w dat symaddr))).length
        ≤ dat.count_rem := by
    have h1 := nonzero_bytes_length_le
      (read_bytes h (cb_loc h w dat symaddr) (cb_bytes h w dat symaddr))
    rw [read_bytes_length] at h1
    have h2 : cb_bytes h w dat symaddr ≤ dat.count_rem := bytes_to_pull_le_count _ _ _
    omega
  obtain ⟨h1, h2, h3, h4, h5⟩ := store_bytes_filled _ dat hle hbc hlen hnz
  refine ⟨_, _, _, hrun, h4, h1, h5, h2, h3, ?_, ?_, ?_, rfl⟩
  · intro hz
    exact store_bytes_all_zero _ dat hz
  · constructor
    · intro hr
      by_contra hne
      rw [if_neg hne] at hr
      cases hr
    · intro hz
      rw [if_pos hz]
  · constructor
    · intro hr hz
      rw [if_pos hz] at hr
      cases hr
    · intro hne
      rw [if_neg hne]

/-- Witness for C17: on `demoHost` the entry at 4096 is accepted with three
bytes remaining; the bytes 0, 1, 2 are read, 1 and 2 are appended and one byte
remains to be fetched. -/
theorem iterate_kallsyms_appends_nonzero_witness :
    iterate_kallsyms demoHost demoWorld (proc_read_init 3) 4096
      = Run.done (0, ⟨[1, 2, 0, 0], 1, 3⟩, ⟨3, 9, [4096, 4097, 4098], 0⟩) ∧
    read_bytes demoHost (cb_loc demoHost demoWorld (proc_read_init 3) 4096)
      (cb_bytes demoHost demoWorld (proc_read_init 3) 4096) = [0, 1, 2] ∧
    ∃ r dat1 w1, iterate_kallsyms demoHost demoWorld (proc_read_init 3) 4096
        = Run.done (r, dat1, w1) ∧
      dat1.buf.take ((proc_read_init 3).bytes_cache - dat1.count_rem)
        = (proc_read_init 3).buf.take
            ((proc_read_init 3).bytes_cache - (proc_read_init 3).count_rem)
          ++ nonzero_bytes (read_bytes demoHost
              (cb_loc demoHost demoWorld (proc_read_init 3) 4096)
              (cb_bytes demoHost demoWorld (proc_read_init 3) 4096)) ∧
      dat1.count_rem
          + (nonzero_bytes (read_bytes demoHost
              (cb_loc demoHost demoWorld (proc_read_init 3) 4096)
              (cb_bytes demoHost demoWorld (proc_read_init 3) 4096))).length
        = (proc_read_init 3).count_rem :=
  ⟨by decide, by decide,
   (iterate_kallsyms_appends_nonzero demoHost demoWorld (proc_read_init 3) 4096
      (by decide) (by decide) (by decide) (by decide) (fun _ _ => rfl)
      (by decide) (by decide) (by decide)).imp
     fun _ hr => hr.imp fun _ hd => hd.imp fun _ hw => ⟨hw.1, hw.2.1, hw.2.2.1⟩⟩

/-! ## C12: the scenario with six entries -/

theorem kallsyms_on_each_symbol_continue (h : Host) (a : Nat) (rest : List Nat) (w : World)
    (dat : data_kallsyms_it) (dat1 : data_kallsyms_it) (w1 : World)
    (hcb : iterate_kallsyms h w dat a = Run.done (0, dat1, w1)) :
    kallsyms_on_each_symbol h (a :: rest) w dat = kallsyms_on_each_symbol h rest w1 dat1 := by
  conv_lhs => unfold kallsyms_on_each_symbol
  rw [hcb]
  simp

theorem kallsyms_on_each_symbol_stop (h : Host) (a : Nat) (rest : List Nat) (w : World)
    (dat : data_kallsyms_it) (dat1 : data_kallsyms_it) (w1 : World)
    (hcb : iterate_kallsyms h w dat a = Run.done (1, dat1, w1)) :
    kallsyms_on_each_symbol h (a :: rest) w dat = Run.done (1, dat1, w1) := by
  unfold kallsyms_on_each_symbol
  rw [hcb]
  simp

/-- One callback of the scenario: target length 16, the entry is accepted, the
run-length draw is 5, the offset draw is 0, the page window is 64 bytes. -/
theorem scenario_step (h : Host) (w : World) (dat : data_kallsyms_it) (a n : Nat)
    (hN : w.BYTES_TO_FETCH = 16)
    (hent : ∀ i, i < 9 → h.entropy (w.rng_pos + i) % 256 = if i = 4 then 5 else 0)
    (hrem : rem_in_page h a = 64) (hn : n = min dat.count_rem 5)
    (hmap : ∀ j, j < n → (h.mem (a + j)).isSome)
    (hbc : dat.bytes_cache = 16) (hle : dat.count_rem ≤ 16) (hlen : dat.buf.length = 17) :
    ∃ dat1, iterate_kallsyms h w dat a
        = Run.done (if dat1.count_rem = 0 then 1 else 0, dat1,
            { w with rng_pos := w.rng_pos + 9, reads := w.reads ++ List.range' a n }) ∧
      dat1.bytes_cache = 16 ∧ dat1.buf.length = 17 ∧
      dat1.count_rem + (nonzero_bytes (read_bytes h a n)).length = dat.count_rem ∧
      dat1.buf.take (16 - dat1.count_rem)
        = dat.buf.take (16 - dat.count_rem) ++ nonzero_bytes (read_bytes h a n) := by
  have hacc : u32_at h w.rng_pos = 0 := by
    have h0 := hent 0 (by omega)
    simp only [Nat.add_zero] at h0
    simp [u32_at, h0, hent 1, hent 2, hent 3]
  have hdraw : u8_at h (w.rng_pos + 4) = 5 := by
    simp [u8_at, hent 4]
  have hoff : u32_at h (w.rng_pos + 5) = 0 := by
    simp [u32_at, Nat.add_assoc, hent 5, hent 6, hent 7, hent 8]
  have hbytes : cb_bytes h w dat a = n := by
    unfold cb_bytes bytes_to_pull min3
    rw [hdraw, hrem, hn]
    omega
  have hloc : cb_loc h w dat a = a := by
    unfold cb_loc
    rw [hoff]
    simp
  have hrun := iterate_kallsyms_accepted_eq h w dat a (by rw [hN]; decide) (by rw [hN]; decide)
    (by rw [hacc]; simp) (by rw [hbytes, hrem]; omega)
    (by rw [hbytes, hloc]; exact hmap)
  rw [hbytes, hloc] at hrun
  have hnz : (nonzero_bytes (read_bytes h a n)).length ≤ dat.count_rem := by
    have h1 := nonzero_bytes_length_le (read_bytes h a n)
    rw [read_bytes_length] at h1
    omega
  obtain ⟨h1, h2, h3, h4, _⟩ := store_bytes_filled (read_bytes h a n) dat
    (by omega) (by rw [hbc]; decide) (by omega) hnz
  rw [hbc] at h2 h4
  exact ⟨_, hrun, h2, by rw [h3, hlen], h1, h4⟩

theorem nonzero_bytes_ne_zero (bs : List Nat) : ∀ b, b ∈ nonzero_bytes bs → b ≠ 0 := by
  intro b hb
  unfold nonzero_bytes at hb
  simpa using (List.mem_filter.mp hb).2

/-- One callback of the scenario, with the state it hands to the next one. -/
theorem scenario_step_next (h : Host) (w : World) (dat : data_kallsyms_it) (a n : Nat)
    (hN : w.BYTES_TO_FETCH = 16) (hent : ScenarioStream h w)
    (hrem : rem_in_page h a = 64) (hn : n = min dat.count_rem 5)
    (hmap : ∀ j, j < n → (h.mem (a + j)).isSome)
    (hbc : dat.bytes_cache = 16) (hle : dat.count_rem ≤ 16) (hlen : dat.buf.length = 17) :
    ∃ dat1 w1, iterate_kallsyms h w dat a
        = Run.done (if dat1.count_rem = 0 then 1 else 0, dat1, w1) ∧
      w1.BYTES_TO_FETCH = 16 ∧ ScenarioStream h w1 ∧ w1.rng_pos = w.rng_pos + 9 ∧
      dat1.bytes_cache = 16 ∧ dat1.buf.length = 17 ∧
      dat1.count_rem + (nonzero_bytes (read_bytes h a n)).length = dat.count_rem ∧
      dat1.buf.take (16 - dat1.count_rem)
        = dat.buf.take (16 - dat.count_rem) ++ nonzero_bytes (read_bytes h a n) := by
  have hent9 : ∀ i, i < 9 → h.entropy (w.rng_pos + i) % 256 = if i = 4 then 5 else 0 := by
    intro i hi
    rw [hent i]
    have hmod : i % 9 = i := Nat.mod_eq_of_lt hi
    rw [hmod]
  obtain ⟨dat1, hrun, h1, h2, h3, h4⟩ :=
    scenario_step h w dat a n hN hent9 hrem hn hmap hbc hle hlen
  refine ⟨dat1, _, hrun, hN, ?_, rfl, h1, h2, h3, h4⟩
  intro i
  have hi := hent (9 + i)
  have hmod : (9 + i) % 9 = i % 9 := by omega
  rw [hmod, ← Nat.add_assoc] at hi
  exact hi

/-- C12 (as amended): target length 16; six entries that each have 64 bytes left
in their page; the entropy stream always accepts, always draws run length 5 and
start offset 0. The code reads 5 bytes from each of the first four entries, 4
bytes from the fifth (only 4 bytes are still wanted) and 1 byte from the sixth.
When each of these runs can be read and holds exactly 3 non-zero bytes (for the
fifth entry: among its first four bytes; for the sixth: its first byte is
non-zero), the pass ends at the sixth entry with return value 1, `count_rem` is
0, and the buffer holds exactly 16 non-zero bytes: the non-zero bytes of the
runs, in order. The sampling loop then stops. -/
theorem scenario_six_entries (h : Host) (w : World) (a1 a2 a3 a4 a5 a6 : Nat)
    (hN : w.BYTES_TO_FETCH = 16) (hent : ScenarioStream h w)
    (hr1 : rem_in_page h a1 = 64) (hr2 : rem_in_page h a2 = 64)
    (hr3 : rem_in_page h a3 = 64) (hr4 : rem_in_page h a4 = 64)
    (hr5 : rem_in_page h a5 = 64) (hr6 : rem_in_page h a6 = 64)
    (hm1 : ∀ j, j < 5 → (h.mem (a1 + j)).isSome)
    (hm2 : ∀ j, j < 5 → (h.mem (a2 + j)).isSome)
    (hm3 : ∀ j, j < 5 → (h.mem (a3 + j)).isSome)
    (hm4 : ∀ j, j < 5 → (h.mem (a4 + j)).isSome)
    (hm5 : ∀ j, j < 4 → (h.mem (a5 + j)).isSome)
    (hm6 : ∀ j, j < 1 → (h.mem (a6 + j)).isSome)
    (hz1 : (nonzero_bytes (read_bytes h a1 5)).length = 3)
    (hz2 : (nonzero_bytes (read_bytes h a2 5)).length = 3)
    (hz3 : (nonzero_bytes (read_bytes h a3 5)).length = 3)
    (hz4 : (nonzero_bytes (read_bytes h a4 5)).length = 3)
    (hz5 : (nonzero_bytes (read_bytes h a5 4)).length = 3)
    (hz6 : (nonzero_bytes (read_bytes h a6 1)).length = 1) :
    ∃ dat1 w1,
      kallsyms_on_each_symbol h [a1, a2, a3, a4, a5, a6] w (proc_read_init 16)
        = Run.done (1, dat1, w1) ∧
      dat1.count_rem = 0 ∧ dat1.buf.length = 17 ∧
      dat1.buf.take 16
        = nonzero_bytes (read_bytes h a1 5) ++ nonzero_bytes (read_bytes h a2 5)
          ++ nonzero_bytes (read_bytes h a3 5) ++ nonzero_bytes (read_bytes h a4 5)
          ++ nonzero_bytes (read_bytes h a5 4) ++ nonzero_bytes (read_bytes h a6 1) ∧
      (dat1.buf.take 16).length = 16 ∧ (∀ b, b ∈ dat1.buf.take 16 → b ≠ 0) ∧
      w1.rng_pos = w.rng_pos + 54 ∧
      ∀ fuel, sampling_loop h fuel w1 dat1 = Run.done (dat1, w1) := by
  have hl0 : (proc_read_init 16).buf.length = 17 := by decide
  obtain ⟨d1, w1, hc1, hN1, he1, hp1, hb1, hl1, hn1, ht1⟩ :=
    scenario_step_next h w (proc_read_init 16) a1 5 hN hent hr1 (by decide) hm1 rfl
      (by decide) hl0
  have hcr1 : d1.count_rem = 13 := by
    have : (proc_read_init 16).count_rem = 16 := rfl
    omega
  obtain ⟨d2, w2, hc2, hN2, he2, hp2, hb2, hl2, hn2, ht2⟩ :=
    scenario_step_next h w1 d1 a2 5 hN1 he1 hr2 (by rw [hcr1]; decide) hm2 hb1
      (by omega) hl1
  have hcr2 : d2.count_rem = 10 := by omega
  obtain ⟨d3, w3, hc3, hN3, he3, hp3, hb3, hl3, hn3, ht3⟩ :=
    scenario_step_next h w2 d2 a3 5 hN2 he2 hr3 (by rw [hcr2]; decide) hm3 hb2
      (by omega) hl2
  have hcr3 : d3.count_rem = 7 := by omega
  obtain ⟨d4, w4, hc4, hN4, he4, hp4, hb4, hl4, hn4, ht4⟩ :=
    scenario_step_next h w3 d3 a4 5 hN3 he3 hr4 (by rw [hcr3]; decide) hm4 hb3
      (by omega) hl3
  have hcr4 : d4.count_rem = 4 := by omega
  obtain ⟨d5, w5, hc5, hN5, he5, hp5, hb5, hl5, hn5, ht5⟩ :=
    scenario_step_next h w4 d4 a5 4 hN4 he4 hr5 (by rw [hcr4]; decide) hm5 hb4
      (by omega) hl4
  have hcr5 : d5.count_rem = 1 := by omega
  obtain ⟨d6, w6, hc6, hN6, he6, hp6, hb6, hl6, hn6, ht6⟩ :=
    scenario_step_next h w5 d5 a6 1 hN5 he5 hr6 (by rw [hcr5]; decide) hm6 hb5
      (by omega) hl5
  have hcr6 : d6.count_rem = 0 := by omega
  rw [hcr1] at hc1
  rw [hcr2] at hc2
  rw [hcr3] at hc3
  rw [hcr4] at hc4
  rw [hcr5] at hc5
  rw [hcr6] at hc6
  simp only [OfNat.ofNat_ne_zero, if_false, if_true] at hc1 hc2 hc3 hc4 hc5 hc6
  have htake : d6.buf.take 16
      = nonzero_bytes (read_bytes h a1 5) ++ nonzero_bytes (read_bytes h a2 5)
        ++ nonzero_bytes (read_bytes h a3 5) ++ nonzero_bytes (read_bytes h a4 5)
        ++ nonzero_bytes (read_bytes h a5 4) ++ nonzero_bytes (read_bytes h a6 1) := by
    have h0 : (proc_read_init 16).buf.take (16 - (proc_read_init 16).count_rem) = [] := by
      decide
    rw [hcr6] at ht6
    rw [ht6, ht5, ht4, ht3, ht2, ht1, h0]
    simp
  refine ⟨d6, w6, ?_, hcr6, hl6, htake, ?_, ?_, by omega, ?_⟩
  · rw [kallsyms_on_each_symbol_continue h a1 _ w _ d1 w1 hc1,
      kallsyms_on_each_symbol_continue h a2 _ w1 _ d2 w2 hc2,
      kallsyms_on_each_symbol_continue h a3 _ w2 _ d3 w3 hc3,
      kallsyms_on_each_symbol_continue h a4 _ w3 _ d4 w4 hc4,
      kallsyms_on_each_symbol_continue h a5 _ w4 _ d5 w5 hc5,
      kallsyms_on_each_symbol_stop h a6 _ w5 _ d6 w6 hc6]
  · rw [List.length_take, hl6]
    rfl
  · intro b hb
    rw [htake] at hb
    simp only [List.mem_append] at hb
    rcases hb with ((((hb | hb) | hb) | hb) | hb) | hb <;>
      exact nonzero_bytes_ne_zero _ b hb
  · intro fuel
    cases fuel with
    | zero => simp [sampling_loop, hcr6]
    | succ fuel => simp [sampling_loop, hcr6]

theorem scenarioHost_stream : ScenarioStream scenarioHost scenarioWorld := by
  intro i
  simp [scenarioHost, scenarioWorld]
  split <;> decide

/-- Witness for C12 (as amended): on `scenarioHost` every window starts with the
bytes 1, 2, 3; the pass stops at the sixth entry with 16 non-zero bytes. -/
theorem scenario_six_entries_witness :
    kallsyms_on_each_symbol scenarioHost [4032, 8128, 12224, 16320, 20416, 24512]
        scenarioWorld (proc_read_init 16)
      = Run.done (1,
          ⟨[1, 2, 3, 1, 2, 3, 1, 2, 3, 1, 2, 3, 1, 2, 3, 1, 0], 0, 16⟩,
          ⟨16, 54, [4032, 4033, 4034, 4035, 4036, 8128, 8129, 8130, 8131, 8132, 12224, 12225,
            12226, 12227, 12228, 16320, 16321, 16322, 16323, 16324, 20416, 20417, 20418,
            20419, 24512], 0⟩) ∧
    ∃ dat1 w1,
      kallsyms_on_each_symbol scenarioHost [4032, 8128, 12224, 16320, 20416, 24512]
          scenarioWorld (proc_read_init 16) = Run.done (1, dat1, w1) ∧
      dat1.count_rem = 0 ∧ dat1.buf.length = 17 :=
  ⟨by decide,
   (scenario_six_entries scenarioHost scenarioWorld 4032 8128 12224 16320 20416 24512
      (by decide) scenarioHost_stream
      (by decide) (by decide) (by decide) (by decide) (by decide) (by decide)
      (fun _ _ => rfl) (fun _ _ => rfl) (fun _ _ => rfl) (fun _ _ => rfl) (fun _ _ => rfl)
      (fun _ _ => rfl)
      (by decide) (by decide) (by decide) (by decide) (by decide) (by decide)).imp
     fun _ hd => hd.imp fun _ hw => ⟨hw.1, hw.2.1, hw.2.2.1⟩⟩

/-- C12 fails as stated: on `scenarioHostLate` every entry has 64 bytes left in
its page and its 5-byte window holds exactly 3 non-zero bytes (0, 0, 1, 2, 3),
the entropy stream is the one of the scenario, but the code reads only 4 bytes
of the fifth window and 2 bytes of the sixth: after the sixth callback the
accumulator holds 14 bytes, `count_rem` is 2 and the pass returns 0. -/
theorem scenario_six_entries_underfilled :
    (∀ a, a ∈ [4032, 8128, 12224, 16320, 20416, 24512] →
      rem_in_page scenarioHostLate a = 64 ∧
      read_bytes scenarioHostLate a 5 = [0, 0, 1, 2, 3] ∧
      (nonzero_bytes (read_bytes scenarioHostLate a 5)).length = 3) ∧
    kallsyms_on_each_symbol scenarioHostLate [4032, 8128, 12224, 16320, 20416, 24512]
        scenarioWorld (proc_read_init 16)
      = Run.done (0,
          ⟨[1, 2, 3, 1, 2, 3, 1, 2, 3, 1, 2, 3, 1, 2, 0, 0, 0], 2, 16⟩,
          ⟨16, 54, [4032, 4033, 4034, 4035, 4036, 8128, 8129, 8130, 8131, 8132, 12224, 12225,
            12226, 12227, 12228, 16320, 16321, 16322, 16323, 16324, 20416, 20417, 20418,
            20419, 24512, 24513], 0⟩) := by
  decide

/-! ## C16: the accumulator invariant -/

/-- A returning callback has applied `store_bytes` of at most `count_rem` bytes
(of none when the entry was rejected). -/
theorem iterate_kallsyms_done_store (h : Host) (w : World) (dat : data_kallsyms_it)
    (symaddr : Nat) (r : Int) (dat1 : data_kallsyms_it) (w1 : World)
    (hrun : iterate_kallsyms h w dat symaddr = Run.done (r, dat1, w1)) :
    ∃ bs, bs.length ≤ dat.count_rem ∧ dat1 = store_bytes dat bs := by
  unfold iterate_kallsyms at hrun
  simp only at hrun
  split at hrun
  · simp at hrun
  split at hrun
  · simp at hrun
  split at hrun
  · simp only [Run.done.injEq, Prod.mk.injEq] at hrun
    exact ⟨[], by simp, hrun.2.1.symm⟩
  split at hrun
  · simp at hrun
  split at hrun
  · simp at hrun
  · simp at hrun
  · rename_i dat2 w2 hloop
    simp only [Run.done.injEq, Prod.mk.injEq] at hrun
    obtain ⟨_, hd, _⟩ := hrun
    subst hd
    refine ⟨_, ?_, iterate_kallsyms_loop_done_eq h _ _ 0 dat _ dat2 w2 hloop⟩
    rw [read_bytes_length]
    exact bytes_to_pull_le_count _ _ _

theorem accInv_init (N : Nat) (hN : N + 1 < SIZE_MOD) : AccInv N (proc_read_init N) := by
  have hlen : size_add N 1 = N + 1 := size_add_eq N 1 hN
  have hbuf : (proc_read_init N).buf = List.replicate (N + 1) 0 := by
    simp only [proc_read_init, hlen]
    apply List.ext_getElem?
    intro i
    rw [List.getElem?_set]
    split
    · rename_i hi
      subst hi
      simp
    · rfl
  refine ⟨rfl, le_refl _, by rw [hbuf]; simp, ?_, ?_⟩
  · intro b hb
    have : (proc_read_init N).count_rem = N := rfl
    rw [this, Nat.sub_self] at hb
    simp at hb
  · have : (proc_read_init N).count_rem = N := rfl
    rw [this, Nat.sub_self, hbuf]
    rfl

theorem accInv_store_bytes (N : Nat) (hN : N < SIZE_MOD) (bs : List Nat)
    (dat : data_kallsyms_it) (hi : AccInv N dat) (hbs : bs.length ≤ dat.count_rem) :
    AccInv N (store_bytes dat bs) := by
  have hnz : (nonzero_bytes bs).length ≤ dat.count_rem :=
    le_trans (nonzero_bytes_length_le bs) hbs
  have hle := hi.le
  obtain ⟨h1, h2, h3, h4, h5⟩ := store_bytes_filled bs dat (by rw [hi.cache]; exact hle)
    (by rw [hi.cache]; exact hN) (by rw [hi.cache, hi.len]; omega) hnz
  rw [hi.cache] at h2 h4 h5
  refine ⟨h2, by omega, by rw [h3, hi.len], ?_, ?_⟩
  · intro b hb
    rw [h4, List.mem_append] at hb
    rcases hb with hb | hb
    · exact hi.filled b hb
    · exact nonzero_bytes_ne_zero bs b hb
  · rw [h5]
    have hsplit : N - (store_bytes dat bs).count_rem
        = (N - dat.count_rem) + (nonzero_bytes bs).length := by omega
    rw [hsplit, ← List.drop_drop, hi.rest, List.drop_replicate]
    congr 1
    omega

/-- Every reachable accumulator state satisfies the invariant. -/
theorem reachable_accInv (h : Host) (N : Nat) (hN : N + 1 < SIZE_MOD)
    (dat : data_kallsyms_it) (hr : Reachable h N dat) : AccInv N dat := by
  induction hr with
  | fresh => exact accInv_init N hN
  | step w dat symaddr r dat1 w1 _ hrun ih =>
    obtain ⟨bs, hbs, hd⟩ := iterate_kallsyms_done_store h w dat symaddr r dat1 w1 hrun
    rw [hd]
    exact accInv_store_bytes N (by omega) bs dat ih hbs

/-- The stores of one run land on consecutive indices, starting right after the
filled part. -/
theorem write_indices_eq :
    ∀ (bs : List Nat) (dat : data_kallsyms_it),
      dat.count_rem ≤ dat.bytes_cache → dat.bytes_cache < SIZE_MOD →
      (nonzero_bytes bs).length ≤ dat.count_rem →
      write_indices dat bs
        = List.range' (dat.bytes_cache - dat.count_rem) (nonzero_bytes bs).length := by
  intro bs
  induction bs with
  | nil =>
    intro dat _ _ _
    simp [write_indices, nonzero_bytes]
  | cons b bs ih =>
    intro dat hle hbc hnz
    by_cases hb : b ≠ 0
    · rw [nonzero_bytes_cons_pos b bs hb] at hnz ⊢
      simp only [List.length_cons] at hnz ⊢
      have hidx : size_sub dat.bytes_cache dat.count_rem = dat.bytes_cache - dat.count_rem :=
        size_sub_eq _ _ hle hbc
      have hdec : size_sub dat.count_rem 1 = dat.count_rem - 1 :=
        size_sub_eq _ _ (by omega) (by omega)
      have hcr : (store_byte dat b).count_rem = dat.count_rem - 1 := by
        simp [store_byte, hdec]
      have hbc1 : (store_byte dat b).bytes_cache = dat.bytes_cache := rfl
      have hstep : write_indices dat (b :: bs)
          = size_sub dat.bytes_cache dat.count_rem :: write_indices (store_byte dat b) bs := by
        simp [write_indices, hb]
      rw [hstep, hidx, ih (store_byte dat b) (by rw [hcr, hbc1]; omega)
        (by rw [hbc1]; exact hbc) (by rw [hcr]; omega), hcr, hbc1, List.range'_succ]
      have he : dat.bytes_cache - (dat.count_rem - 1) = dat.bytes_cache - dat.count_rem + 1 := by
        omega
      rw [he]
    · have hb0 : b = 0 := by omega
      subst hb0
      rw [nonzero_bytes_cons_zero] at hnz ⊢
      have hstep : write_indices dat (0 :: bs) = write_indices dat bs := by
        simp [write_indices]
      rw [hstep]
      exact ih dat hle hbc hnz

theorem nonzero_bytes_of_accInv (N : Nat) (dat : data_kallsyms_it) (hi : AccInv N dat) :
    (nonzero_bytes dat.buf).length = N - dat.count_rem := by
  have hsplit : dat.buf
      = dat.buf.take (N - dat.count_rem) ++ List.replicate (dat.count_rem + 1) 0 := by
    rw [← hi.rest, List.take_append_drop]
  have hfil : nonzero_bytes (dat.buf.take (N - dat.count_rem))
      = dat.buf.take (N - dat.count_rem) := by
    unfold nonzero_bytes
    rw [List.filter_eq_self]
    intro b hb
    simpa using hi.filled b hb
  have hlen := hi.len
  have hle := hi.le
  rw [hsplit]
  unfold nonzero_bytes at hfil ⊢
  rw [List.filter_append, hfil, List.filter_replicate_of_neg (by simp)]
  simp only [List.append_nil, List.length_take]
  omega

/-- C16: in every accumulator state reachable from a fresh session for target
length `N` by returning calls of `iterate_kallsyms`: `count_rem ≤ bytes_cache = N`
(the count never underflows); the buffer keeps its `N + 1` bytes and the
terminator at index `N` is still 0; exactly `N - count_rem` bytes have been
written; the session is complete (`count_rem = 0`) exactly when `N` bytes have
been written; and the stores of any further call land on the consecutive
indices `bytes_cache - count_rem, ...`, one per byte by which `count_rem` drops,
each below `N` and each larger than the one before. -/
theorem reachable_accumulator (h : Host) (N : Nat) (dat : data_kallsyms_it)
    (hN : N + 1 < SIZE_MOD) (hr : Reachable h N dat) :
    dat.bytes_cache = N ∧ dat.count_rem ≤ dat.bytes_cache ∧
    dat.buf.length = N + 1 ∧ dat.buf[N]? = some 0 ∧
    (nonzero_bytes dat.buf).length = N - dat.count_rem ∧
    (dat.count_rem = 0 ↔ (nonzero_bytes dat.buf).length = N) ∧
    ∀ (w : World) (symaddr : Nat) (r : Int) (dat1 : data_kallsyms_it) (w1 : World),
      iterate_kallsyms h w dat symaddr = Run.done (r, dat1, w1) →
      ∃ bs, dat1 = store_bytes dat bs ∧ dat1.count_rem ≤ dat.count_rem ∧
        write_indices dat bs
          = List.range' (dat.bytes_cache - dat.count_rem) (dat.count_rem - dat1.count_rem) ∧
        (∀ i, i ∈ write_indices dat bs → i < N) ∧
        List.Pairwise (fun i j => i < j) (write_indices dat bs) := by
  have hi := reachable_accInv h N hN dat hr
  have hcache := hi.cache
  have hle := hi.le
  have hcount := nonzero_bytes_of_accInv N dat hi
  refine ⟨hcache, by omega, hi.len, ?_, hcount, by omega, ?_⟩
  · have hget : (dat.buf.drop (N - dat.count_rem))[dat.count_rem]? = some 0 := by
      rw [hi.rest, List.getElem?_replicate]
      simp
    rw [List.getElem?_drop] at hget
    have he : N - dat.count_rem + dat.count_rem = N := by omega
    rw [he] at hget
    exact hget
  · intro w symaddr r dat1 w1 hrun
    obtain ⟨bs, hbs, hd⟩ := iterate_kallsyms_done_store h w dat symaddr r dat1 w1 hrun
    have hnz : (nonzero_bytes bs).length ≤ dat.count_rem :=
      le_trans (nonzero_bytes_length_le bs) hbs
    obtain ⟨h1, _, _, _, _⟩ := store_bytes_filled bs dat (by omega) (by omega)
      (by rw [hi.len]; omega) hnz
    have hw := write_indices_eq bs dat (by omega) (by omega) hnz
    have hdrop : dat.count_rem - dat1.count_rem = (nonzero_bytes bs).length := by
      rw [hd]
      omega
    refine ⟨bs, hd, by rw [hd]; omega, by rw [hw, hdrop], ?_, ?_⟩
    · intro i hmem
      rw [hw, List.mem_range'_1] at hmem
      omega
    · rw [hw]
      exact List.pairwise_lt_range' _ _

/-- Witness for C16: the state `demoDatDone` is reached on `demoHost` by two
calls; it is complete and all three bytes are written. -/
theorem reachable_accumulator_witness :
    Reachable demoHost 3 demoDatDone ∧
    demoDatDone.count_rem ≤ demoDatDone.bytes_cache ∧ demoDatDone.buf[3]? = some 0 ∧
    (nonzero_bytes demoDatDone.buf).length = 3 - demoDatDone.count_rem :=
  ⟨Reachable.step ⟨3, 9, [4096, 4097, 4098], 2⟩ ⟨[1, 2, 0, 0], 1, 3⟩ 8293 1 demoDatDone
      demoWorldDone
      (Reachable.step demoWorld (proc_read_init 3) 4096 0 ⟨[1, 2, 0, 0], 1, 3⟩
        ⟨3, 9, [4096, 4097, 4098], 0⟩ Reachable.fresh (by decide))
      (by decide),
   (reachable_accumulator demoHost 3 demoDatDone (by decide)
      (Reachable.step ⟨3, 9, [4096, 4097, 4098], 2⟩ ⟨[1, 2, 0, 0], 1, 3⟩ 8293 1 demoDatDone
        demoWorldDone
        (Reachable.step demoWorld (proc_read_init 3) 4096 0 ⟨[1, 2, 0, 0], 1, 3⟩
          ⟨3, 9, [4096, 4097, 4098], 0⟩ Reachable.fresh (by decide))
        (by decide))).2.1,
   (reachable_accumulator demoHost 3 demoDatDone (by decide)
      (Reachable.step ⟨3, 9, [4096, 4097, 4098], 2⟩ ⟨[1, 2, 0, 0], 1, 3⟩ 8293 1 demoDatDone
        demoWorldDone
        (Reachable.step demoWorld (proc_read_init 3) 4096 0 ⟨[1, 2, 0, 0], 1, 3⟩
          ⟨3, 9, [4096, 4097, 4098], 0⟩ Reachable.fresh (by decide))
        (by decide))).2.2.2.1,
   (reachable_accumulator demoHost 3 demoDatDone (by decide)
      (Reachable.step ⟨3, 9, [4096, 4097, 4098], 2⟩ ⟨[1, 2, 0, 0], 1, 3⟩ 8293 1 demoDatDone
        demoWorldDone
        (Reachable.step demoWorld (proc_read_init 3) 4096 0 ⟨[1, 2, 0, 0], 1, 3⟩
          ⟨3, 9, [4096, 4097, 4098], 0⟩ Reachable.fresh (by decide))
        (by decide))).2.2.2.2.1⟩

/-! ## C14: determinism -/

theorem iterate_kallsyms_loop_host_congr (h1 h2 : Host) (hmem : h1.mem = h2.mem) (loc : Nat) :
    ∀ (k i : Nat) (dat : data_kallsyms_it) (w : World),
      iterate_kallsyms_loop h1 loc k i dat w = iterate_kallsyms_loop h2 loc k i dat w := by
  intro k
  induction k with
  | zero =>
    intro i dat w
    simp [iterate_kallsyms_loop]
  | succ k ih =>
    intro i dat w
    unfold iterate_kallsyms_loop
    rw [hmem]
    simp only [ih]

theorem iterate_kallsyms_loop_world_indep (h : Host) (loc : Nat) :
    ∀ (k i : Nat) (dat : data_kallsyms_it) (w1 w2 : World),
      (iterate_kallsyms_loop h loc k i dat w1).map Prod.fst
        = (iterate_kallsyms_loop h loc k i dat w2).map Prod.fst := by
  intro k
  induction k with
  | zero =>
    intro i dat w1 w2
    simp [iterate_kallsyms_loop, Run.map]
  | succ k ih =>
    intro i dat w1 w2
    unfold iterate_kallsyms_loop
    cases h.mem (loc + i) with
    | none => rfl
    | some v =>
      simp only
      split
      · exact ih _ _ _ _
      · exact ih _ _ _ _

theorem sameInputs_advance {h1 h2 : Host} {w1 w2 : World} (hs : SameInputs h1 w1 h2 w2)
    (n : Nat) (v1 v2 : World)
    (hb1 : v1.BYTES_TO_FETCH = w1.BYTES_TO_FETCH) (hb2 : v2.BYTES_TO_FETCH = w2.BYTES_TO_FETCH)
    (hp1 : v1.rng_pos = w1.rng_pos + n) (hp2 : v2.rng_pos = w2.rng_pos + n)
    (hq1 : v1.passes = w1.passes) (hq2 : v2.passes = w2.passes) :
    SameInputs h1 v1 h2 v2 := by
  obtain ⟨hP, hM, hK, hB, hE, hS⟩ := hs
  refine ⟨hP, hM, hK, by rw [hb1, hb2, hB], ?_, ?_⟩
  · intro i
    rw [hp1, hp2, Nat.add_assoc, Nat.add_assoc]
    exact hE (n + i)
  · intro p
    rw [hq1, hq2]
    exact hS p

theorem sameInputs_u32 {h1 h2 : Host} {w1 w2 : World} (hs : SameInputs h1 w1 h2 w2) (n : Nat) :
    u32_at h1 (w1.rng_pos + n) = u32_at h2 (w2.rng_pos + n) := by
  obtain ⟨_, _, _, _, hE, _⟩ := hs
  unfold u32_at
  simp only [Nat.add_assoc]
  rw [hE n, hE (n + 1), hE (n + 2), hE (n + 3)]

theorem sameInputs_u8 {h1 h2 : Host} {w1 w2 : World} (hs : SameInputs h1 w1 h2 w2) (n : Nat) :
    u8_at h1 (w1.rng_pos + n) = u8_at h2 (w2.rng_pos + n) := by
  obtain ⟨_, _, _, _, hE, _⟩ := hs
  unfold u8_at
  exact hE n

/-- A callback in a state without a usable threshold. -/
theorem iterate_kallsyms_no_threshold (h : Host) (w : World) (dat : data_kallsyms_it)
    (symaddr : Nat) (hbad : w.BYTES_TO_FETCH = 0 ∨ threshold w.BYTES_TO_FETCH = 0) :
    iterate_kallsyms h w dat symaddr = Run.fault Fault.divide_error := by
  unfold iterate_kallsyms
  simp only
  by_cases hN : w.BYTES_TO_FETCH = 0
  · rw [if_pos hN]
  · rw [if_neg hN]
    rcases hbad with hz | hz
    · exact absurd hz hN
    · rw [if_pos hz]

/-- Two callbacks on the same entry and accumulator, with the same inputs, end
the same way, and leave states that again have the same inputs. -/
theorem iterate_kallsyms_sim (h1 h2 : Host) (w1 w2 : World) (hs : SameInputs h1 w1 h2 w2)
    (dat : data_kallsyms_it) (a : Nat) :
    RunRel (fun x y => x.1 = y.1 ∧ x.2.1 = y.2.1 ∧ SameInputs h1 x.2.2 h2 y.2.2)
      (iterate_kallsyms h1 w1 dat a) (iterate_kallsyms h2 w2 dat a) := by
  have hB : w1.BYTES_TO_FETCH = w2.BYTES_TO_FETCH := hs.2.2.2.1
  have hacc : u32_at h1 w1.rng_pos = u32_at h2 w2.rng_pos := sameInputs_u32 hs 0
  have hdraw : u8_at h1 (w1.rng_pos + 4) = u8_at h2 (w2.rng_pos + 4) := sameInputs_u8 hs 4
  have hoff : u32_at h1 (w1.rng_pos + 5) = u32_at h2 (w2.rng_pos + 5) := sameInputs_u32 hs 5
  have hrem : rem_in_page h1 a = rem_in_page h2 a := by
    unfold rem_in_page
    rw [hs.1]
  by_cases hbad : w1.BYTES_TO_FETCH = 0 ∨ threshold w1.BYTES_TO_FETCH = 0
  · rw [iterate_kallsyms_no_threshold h1 w1 dat a hbad,
      iterate_kallsyms_no_threshold h2 w2 dat a (by rw [← hB]; exact hbad)]
    simp [RunRel]
  · have hN : w1.BYTES_TO_FETCH ≠ 0 := fun hz => hbad (Or.inl hz)
    have hT : threshold w1.BYTES_TO_FETCH ≠ 0 := fun hz => hbad (Or.inr hz)
    have hN2 : w2.BYTES_TO_FETCH ≠ 0 := by rw [← hB]; exact hN
    have hT2 : threshold w2.BYTES_TO_FETCH ≠ 0 := by rw [← hB]; exact hT
    by_cases hrej : u32_at h1 w1.rng_pos % threshold w1.BYTES_TO_FETCH ≠ 0
    · rw [iterate_kallsyms_rejected h1 w1 dat a hN hT hrej,
        iterate_kallsyms_rejected h2 w2 dat a hN2 hT2 (by rw [← hB, ← hacc]; exact hrej)]
      simp only [RunRel]
      exact ⟨trivial, trivial, sameInputs_advance hs 4 _ _ rfl rfl rfl rfl rfl rfl⟩
    · have ha1 : u32_at h1 w1.rng_pos % threshold w1.BYTES_TO_FETCH = 0 := by omega
      have ha2 : u32_at h2 w2.rng_pos % threshold w2.BYTES_TO_FETCH = 0 := by
        rw [← hB, ← hacc]
        exact ha1
      by_cases hwin : rem_in_page h1 a
          - bytes_to_pull dat.count_rem (u8_at h1 (w1.rng_pos + 4)) (rem_in_page h1 a) = 0
      · rw [iterate_kallsyms_accepted_zero h1 w1 dat a hN hT ha1 hwin,
          iterate_kallsyms_accepted_zero h2 w2 dat a hN2 hT2 ha2
            (by rw [← hrem, ← hdraw]; exact hwin)]
        simp [RunRel]
      · rw [iterate_kallsyms_accepted h1 w1 dat a hN hT ha1 hwin,
          iterate_kallsyms_accepted h2 w2 dat a hN2 hT2 ha2
            (by rw [← hrem, ← hdraw]; exact hwin)]
        rw [← hrem, ← hdraw, ← hoff]
        rw [iterate_kallsyms_loop_host_congr h1 h2 hs.2.1]
        have hmap := iterate_kallsyms_loop_world_indep h2
          (a + u32_at h1 (w1.rng_pos + 5) % (rem_in_page h1 a
            - bytes_to_pull dat.count_rem (u8_at h1 (w1.rng_pos + 4)) (rem_in_page h1 a)))
          (bytes_to_pull dat.count_rem (u8_at h1 (w1.rng_pos + 4)) (rem_in_page h1 a))
          0 dat { w1 with rng_pos := w1.rng_pos + 9 } { w2 with rng_pos := w2.rng_pos + 9 }
        cases hL1 : iterate_kallsyms_loop h2
          (a + u32_at h1 (w1.rng_pos + 5) % (rem_in_page h1 a
            - bytes_to_pull dat.count_rem (u8_at h1 (w1.rng_pos + 4)) (rem_in_page h1 a)))
          (bytes_to_pull dat.count_rem (u8_at h1 (w1.rng_pos + 4)) (rem_in_page h1 a))
          0 dat { w1 with rng_pos := w1.rng_pos + 9 } with
        | fault e =>
          rw [hL1] at hmap
          cases hL2 : iterate_kallsyms_loop h2
            (a + u32_at h1 (w1.rng_pos + 5) % (rem_in_page h1 a
              - bytes_to_pull dat.count_rem (u8_at h1 (w1.rng_pos + 4)) (rem_in_page h1 a)))
            (bytes_to_pull dat.count_rem (u8_at h1 (w1.rng_pos + 4)) (rem_in_page h1 a))
            0 dat { w2 with rng_pos := w2.rng_pos + 9 } with
          | fault f =>
            rw [hL2] at hmap
            simp only [Run.map, Run.fault.injEq] at hmap
            simp [finish_callback, RunRel, hmap]
          | done y =>
            rw [hL2] at hmap
            simp [Run.map] at hmap
          | out_of_fuel =>
            rw [hL2] at hmap
            simp [Run.map] at hmap
        | out_of_fuel =>
          rw [hL1] at hmap
          cases hL2 : iterate_kallsyms_loop h2
            (a + u32_at h1 (w1.rng_pos + 5) % (rem_in_page h1 a
              - bytes_to_pull dat.count_rem (u8_at h1 (w1.rng_pos + 4)) (rem_in_page h1 a)))
            (bytes_to_pull dat.count_rem (u8_at h1 (w1.rng_pos + 4)) (rem_in_page h1 a))
            0 dat { w2 with rng_pos := w2.rng_pos + 9 } with
          | fault f =>
            rw [hL2] at hmap
            simp [Run.map] at hmap
          | done y =>
            rw [hL2] at hmap
            simp [Run.map] at hmap
          | out_of_fuel => simp [finish_callback, RunRel]
        | done x =>
          rw [hL1] at hmap
          cases hL2 : iterate_kallsyms_loop h2
            (a + u32_at h1 (w1.rng_pos + 5) % (rem_in_page h1 a
              - bytes_to_pull dat.count_rem (u8_at h1 (w1.rng_pos + 4)) (rem_in_page h1 a)))
            (bytes_to_pull dat.count_rem (u8_at h1 (w1.rng_pos + 4)) (rem_in_page h1 a))
            0 dat { w2 with rng_pos := w2.rng_pos + 9 } with
          | fault f =>
            rw [hL2] at hmap
            simp [Run.map] at hmap
          | out_of_fuel =>
            rw [hL2] at hmap
            simp [Run.map] at hmap
          | done y =>
            rw [hL2] at hmap
            simp only [Run.map, Run.done.injEq] at hmap
            obtain ⟨d1, v1⟩ := x
            obtain ⟨d2, v2⟩ := y
            simp only at hmap
            subst hmap
            have hv1 := iterate_kallsyms_loop_reads h2 _ _ 0 dat _ d1 v1 hL1
            have hv2 := iterate_kallsyms_loop_reads h2 _ _ 0 dat _ d1 v2 hL2
            simp only [finish_callback, RunRel]
            refine ⟨trivial, trivial, ?_⟩
            rw [hv1, hv2]
            exact sameInputs_advance hs 9 _ _ rfl rfl rfl rfl rfl rfl

/-- Two passes over the same entries with the same inputs end the same way. -/
theorem kallsyms_on_each_symbol_sim (h1 h2 : Host) :
    ∀ (syms : List Nat) (w1 w2 : World) (dat : data_kallsyms_it),
      SameInputs h1 w1 h2 w2 →
      RunRel (fun x y => x.1 = y.1 ∧ x.2.1 = y.2.1 ∧ SameInputs h1 x.2.2 h2 y.2.2)
        (kallsyms_on_each_symbol h1 syms w1 dat) (kallsyms_on_each_symbol h2 syms w2 dat) := by
  intro syms
  induction syms with
  | nil =>
    intro w1 w2 dat hs
    simp only [kallsyms_on_each_symbol, RunRel]
    exact ⟨trivial, trivial, hs⟩
  | cons a rest ih =>
    intro w1 w2 dat hs
    have hcb := iterate_kallsyms_sim h1 h2 w1 w2 hs dat a
    unfold kallsyms_on_each_symbol
    cases hc1 : iterate_kallsyms h1 w1 dat a with
    | fault e =>
      cases hc2 : iterate_kallsyms h2 w2 dat a with
      | fault f =>
        rw [hc1, hc2] at hcb
        simpa [RunRel] using hcb
      | done y =>
        rw [hc1, hc2] at hcb
        simp [RunRel] at hcb
      | out_of_fuel =>
        rw [hc1, hc2] at hcb
        simp [RunRel] at hcb
    | out_of_fuel =>
      cases hc2 : iterate_kallsyms h2 w2 dat a with
      | fault f =>
        rw [hc1, hc2] at hcb
        simp [RunRel] at hcb
      | done y =>
        rw [hc1, hc2] at hcb
        simp [RunRel] at hcb
      | out_of_fuel => simp [RunRel]
    | done x =>
      cases hc2 : iterate_kallsyms h2 w2 dat a with
      | fault f =>
        rw [hc1, hc2] at hcb
        simp [RunRel] at hcb
      | out_of_fuel =>
        rw [hc1, hc2] at hcb
        simp [RunRel] at hcb
      | done y =>
        rw [hc1, hc2] at hcb
        obtain ⟨r1, d1, v1⟩ := x
        obtain ⟨r2, d2, v2⟩ := y
        simp only [RunRel] at hcb
        obtain ⟨hr, hd, hv⟩ := hcb
        subst hr hd
        simp only
        by_cases hz : r1 ≠ 0
        · rw [if_pos hz, if_pos hz]
          simp only [RunRel]
          exact ⟨trivial, trivial, hv⟩
        · rw [if_neg hz, if_neg hz]
          exact ih v1 v2 d1 hv

/-- Two sampling loops with the same inputs and the same pass budget end the
same way, with the same accumulator. -/
theorem sampling_loop_sim (h1 h2 : Host) :
    ∀ (fuel : Nat) (w1 w2 : World) (dat : data_kallsyms_it),
      SameInputs h1 w1 h2 w2 →
      RunRel (fun x y => x.1 = y.1 ∧ SameInputs h1 x.2 h2 y.2)
        (sampling_loop h1 fuel w1 dat) (sampling_loop h2 fuel w2 dat) := by
  intro fuel
  induction fuel with
  | zero =>
    intro w1 w2 dat hs
    unfold sampling_loop
    by_cases hz : dat.count_rem > 0
    · rw [if_pos hz, if_pos hz]
      simp [RunRel]
    · rw [if_neg hz, if_neg hz]
      simp only [RunRel]
      exact ⟨trivial, hs⟩
  | succ fuel ih =>
    intro w1 w2 dat hs
    unfold sampling_loop
    by_cases hz : dat.count_rem > 0
    · rw [if_pos hz, if_pos hz]
      have hlist : h1.kallsyms w1.passes = h2.kallsyms w2.passes := by
        have := hs.2.2.2.2.2 0
        simpa using this
      have hs1 : SameInputs h1 { w1 with passes := w1.passes + 1 } h2
          { w2 with passes := w2.passes + 1 } := by
        obtain ⟨hP, hM, hK, hB, hE, hS⟩ := hs
        refine ⟨hP, hM, hK, hB, hE, ?_⟩
        intro p
        have := hS (1 + p)
        simpa [Nat.add_assoc] using this
      have hpass := kallsyms_on_each_symbol_sim h1 h2 (h2.kallsyms w2.passes) _ _ dat hs1
      rw [hlist]
      cases hc1 : kallsyms_on_each_symbol h1 (h2.kallsyms w2.passes)
          { w1 with passes := w1.passes + 1 } dat with
      | fault e =>
        cases hc2 : kallsyms_on_each_symbol h2 (h2.kallsyms w2.passes)
            { w2 with passes := w2.passes + 1 } dat with
        | fault f =>
          rw [hc1, hc2] at hpass
          simpa [RunRel] using hpass
        | done y =>
          rw [hc1, hc2] at hpass
          simp [RunRel] at hpass
        | out_of_fuel =>
          rw [hc1, hc2] at hpass
          simp [RunRel] at hpass
      | out_of_fuel =>
        cases hc2 : kallsyms_on_each_symbol h2 (h2.kallsyms w2.passes)
            { w2 with passes := w2.passes + 1 } dat with
        | fault f =>
          rw [hc1, hc2] at hpass
          simp [RunRel] at hpass
        | done y =>
          rw [hc1, hc2] at hpass
          simp [RunRel] at hpass
        | out_of_fuel => simp [RunRel]
      | done x =>
        cases hc2 : kallsyms_on_each_symbol h2 (h2.kallsyms w2.passes)
            { w2 with passes := w2.passes + 1 } dat with
        | fault f =>
          rw [hc1, hc2] at hpass
          simp [RunRel] at hpass
        | out_of_fuel =>
          rw [hc1, hc2] at hpass
          simp [RunRel] at hpass
        | done y =>
          rw [hc1, hc2] at hpass
          obtain ⟨r1, d1, v1⟩ := x
          obtain ⟨r2, d2, v2⟩ := y
          simp only [RunRel] at hpass
          obtain ⟨_, hd, hv⟩ := hpass
          subst hd
          exact ih v1 v2 d1 hv
    · rw [if_neg hz, if_neg hz]
      simp only [RunRel]
      exact ⟨trivial, hs⟩

theorem demo_sameInputs : SameInputs demoHost demoWorld demoHost demoWorldLater := by
  refine ⟨rfl, rfl, rfl, rfl, ?_, fun _ => rfl⟩
  intro i
  have hmod : (9 + i) % 9 = (0 + i) % 9 := by omega
  simp only [demoHost, demoWorld, demoWorldLater, hmod]

/-- C14: for every target length, two sessions that are given the same entropy
bytes from their cursors on, the same entries in every pass, the same memory
content (and page size and allocator) and the same call arguments end the same
way within the same pass budget: both return with identical return value,
identical new offset and identical bytes in the caller buffer, or both fault in
the same way, or both are still running. The position of the cursor, the number
of earlier passes and the earlier reads do not matter. -/
theorem proc_read_deterministic (h1 h2 : Host) (w1 w2 : World) (fuel : Nat)
    (ubuf : List Nat) (count : Nat) (offset : Int) (hs : SameInputs h1 w1 h2 w2) :
    (proc_read h1 fuel w1 ubuf count offset).map observed
      = (proc_read h2 fuel w2 ubuf count offset).map observed := by
  have hB : w1.BYTES_TO_FETCH = w2.BYTES_TO_FETCH := hs.2.2.2.1
  have hK : h1.kzalloc_ok = h2.kzalloc_ok := hs.2.2.1
  have hloop := sampling_loop_sim h1 h2 fuel w1 w2 (proc_read_init w2.BYTES_TO_FETCH) hs
  unfold proc_read
  simp only [hB, hK]
  split
  · rfl
  split
  · rfl
  split
  · rfl
  cases hc1 : sampling_loop h1 fuel w1 (proc_read_init w2.BYTES_TO_FETCH) with
  | fault e =>
    cases hc2 : sampling_loop h2 fuel w2 (proc_read_init w2.BYTES_TO_FETCH) with
    | fault f =>
      rw [hc1, hc2] at hloop
      simp only [RunRel] at hloop
      simp [Run.map, hloop]
    | done y =>
      rw [hc1, hc2] at hloop
      simp [RunRel] at hloop
    | out_of_fuel =>
      rw [hc1, hc2] at hloop
      simp [RunRel] at hloop
  | out_of_fuel =>
    cases hc2 : sampling_loop h2 fuel w2 (proc_read_init w2.BYTES_TO_FETCH) with
    | fault f =>
      rw [hc1, hc2] at hloop
      simp [RunRel] at hloop
    | done y =>
      rw [hc1, hc2] at hloop
      simp [RunRel] at hloop
    | out_of_fuel => rfl
  | done x =>
    cases hc2 : sampling_loop h2 fuel w2 (proc_read_init w2.BYTES_TO_FETCH) with
    | fault f =>
      rw [hc1, hc2] at hloop
      simp [RunRel] at hloop
    | out_of_fuel =>
      rw [hc1, hc2] at hloop
      simp [RunRel] at hloop
    | done y =>
      rw [hc1, hc2] at hloop
      obtain ⟨d1, v1⟩ := x
      obtain ⟨d2, v2⟩ := y
      simp only [RunRel] at hloop
      obtain ⟨hd, _⟩ := hloop
      subst hd
      simp only
      split <;> rfl

/-- Witness for C14: on `demoHost` the session started from `demoWorld` and the
one started from `demoWorldLater` both return 4 with the bytes 1, 2, 101, 0. -/
theorem proc_read_deterministic_witness :
    (proc_read demoHost 2 demoWorld [9, 9, 9, 9, 9, 9] 6 0).map observed
      = (proc_read demoHost 2 demoWorldLater [9, 9, 9, 9, 9, 9] 6 0).map observed ∧
    (proc_read demoHost 2 demoWorld [9, 9, 9, 9, 9, 9] 6 0).map observed
      = Run.done (4, 4, [1, 2, 101, 0, 9, 9]) ∧
    (proc_read demoHost 2 demoWorldLater [9, 9, 9, 9, 9, 9] 6 0).map observed
      = Run.done (4, 4, [1, 2, 101, 0, 9, 9]) :=
  ⟨proc_read_deterministic demoHost demoHost demoWorld demoWorldLater 2 [9, 9, 9, 9, 9, 9] 6 0
     demo_sameInputs,
   by decide, by decide⟩

/-! ## C15: the number of bytes of one extraction -/

/-- C15 (as amended): for every accepted entry with remaining count `r`,
run-length byte `d` as drawn (0..255) and page window `p` such that
`min3 (r, d, p) % 16 < p` (so that the modulus of line 86 is not zero): when
the `min3 (r, d, p) % 16` addresses from `loc` on can be read, `iterate_kallsyms`
returns; and whenever it returns it has read exactly those
`min3 (r, d, p) % 16` consecutive addresses: the draw is clamped first and the
minimum is then reduced modulo 16. This is the specified value
`min (r, d mod 16, p) mod 16` whenever `d` is below 16. -/
theorem iterate_kallsyms_read_count (h : Host) (w : World) (dat : data_kallsyms_it)
    (symaddr : Nat) (hN : w.BYTES_TO_FETCH ≠ 0) (hT : threshold w.BYTES_TO_FETCH ≠ 0)
    (hacc : u32_at h w.rng_pos % threshold w.BYTES_TO_FETCH = 0)
    (hwin : min3 dat.count_rem (u8_at h (w.rng_pos + 4)) (rem_in_page h symaddr) % 16
      < rem_in_page h symaddr) :
    u8_at h (w.rng_pos + 4) < 256 ∧
    ((∀ j, j < min3 dat.count_rem (u8_at h (w.rng_pos + 4)) (rem_in_page h symaddr) % 16 →
        (h.mem (cb_loc h w dat symaddr + j)).isSome) →
      ∃ r dat1 w1, iterate_kallsyms h w dat symaddr = Run.done (r, dat1, w1)) ∧
    (∀ (r : Int) (dat1 : data_kallsyms_it) (w1 : World),
      iterate_kallsyms h w dat symaddr = Run.done (r, dat1, w1) →
      w1.reads = w.reads ++ List.range' (cb_loc h w dat symaddr)
        (min3 dat.count_rem (u8_at h (w.rng_pos + 4)) (rem_in_page h symaddr) % 16) ∧
      w1.reads.length = w.reads.length
        + min3 dat.count_rem (u8_at h (w.rng_pos + 4)) (rem_in_page h symaddr) % 16) ∧
    (u8_at h (w.rng_pos + 4) < 16 →
      min3 dat.count_rem (u8_at h (w.rng_pos + 4)) (rem_in_page h symaddr) % 16
        = spec_actual_len dat.count_rem (u8_at h (w.rng_pos + 4)) (rem_in_page h symaddr)) := by
  have hbytes : cb_bytes h w dat symaddr
      = min3 dat.count_rem (u8_at h (w.rng_pos + 4)) (rem_in_page h symaddr) % 16 := rfl
  refine ⟨Nat.mod_lt _ (by decide), ?_, ?_, ?_⟩
  · intro hmap
    exact ⟨_, _, _, iterate_kallsyms_accepted_eq h w dat symaddr hN hT hacc
      (by rw [hbytes]; exact hwin) (by rw [hbytes]; exact hmap)⟩
  · intro r dat1 w1 hrun
    obtain ⟨_, hloop, _⟩ :=
      iterate_kallsyms_accepted_done h w dat symaddr hN hT hacc r dat1 w1 hrun
    have hw1 := iterate_kallsyms_loop_reads h _ _ 0 dat _ dat1 w1 hloop
    have hreads : w1.reads = w.reads ++ List.range' (cb_loc h w dat symaddr)
        (min3 dat.count_rem (u8_at h (w.rng_pos + 4)) (rem_in_page h symaddr) % 16) := by
      rw [hw1]
      rfl
    refine ⟨hreads, ?_⟩
    rw [hreads]
    simp
  · intro hd
    unfold spec_actual_len min3
    rw [Nat.mod_eq_of_lt hd]

/-- Witness for C15 (as amended): on `demoHost` the entry at 4096 is accepted
with three bytes remaining, run-length draw 5 and a page window of 4096; the
call returns and has read three addresses. -/
theorem iterate_kallsyms_read_count_witness :
    min3 (proc_read_init 3).count_rem (u8_at demoHost (demoWorld.rng_pos + 4))
      (rem_in_page demoHost 4096) % 16 = 3 ∧
    (∃ r dat1 w1, iterate_kallsyms demoHost demoWorld (proc_read_init 3) 4096
      = Run.done (r, dat1, w1)) ∧
    iterate_kallsyms demoHost demoWorld (proc_read_init 3) 4096
      = Run.done (0, ⟨[1, 2, 0, 0], 1, 3⟩, ⟨3, 9, [4096, 4097, 4098], 0⟩) ∧
    ([4096, 4097, 4098] : List Nat).length = demoWorld.reads.length
      + min3 (proc_read_init 3).count_rem (u8_at demoHost (demoWorld.rng_pos + 4))
          (rem_in_page demoHost 4096) % 16 ∧
    min3 3 5 4096 % 16 = spec_actual_len 3 5 4096 :=
  ⟨by decide,
   (iterate_kallsyms_read_count demoHost demoWorld (proc_read_init 3) 4096
      (by decide) (by decide) (by decide) (by decide)).2.1 (fun _ _ => rfl),
   by decide,
   ((iterate_kallsyms_read_count demoHost demoWorld (proc_read_init 3) 4096
      (by decide) (by decide) (by decide) (by decide)).2.2.1
      0 ⟨[1, 2, 0, 0], 1, 3⟩ ⟨3, 9, [4096, 4097, 4098], 0⟩ (by decide)).2,
   by decide⟩

/-- C15 fails as stated: with 20 bytes remaining, run-length draw 21 and a page
window of 4096 the code reads `min3 (20, 21, 4096) % 16 = 4` bytes, the
specified value is `min (20, 21 mod 16, 4096) mod 16 = 5`. -/
theorem iterate_kallsyms_read_count_differs :
    u8_at wideDrawHost (wideDrawWorld.rng_pos + 4) = 21 ∧
    rem_in_page wideDrawHost 4096 = 4096 ∧
    (proc_read_init 20).count_rem = 20 ∧
    spec_actual_len 20 21 4096 = 5 ∧
    bytes_to_pull 20 21 4096 = 4 ∧
    iterate_kallsyms wideDrawHost wideDrawWorld (proc_read_init 20) 4096
      = Run.done (0,
          ⟨[1, 2, 3, 0, 0, 0, 0, 0, 0, 0, 0, 0, 0, 0, 0, 0, 0, 0, 0, 0, 0], 17, 20⟩,
          ⟨20, 9, [4096, 4097, 4098, 4099], 0⟩) := by
  decide

end RandomLeak
